import Mathlib

/-!
Verification of the `merklebtree` package (`src/merklebtree/btree.go`): a
B-tree of order `m` whose nodes carry cached Merkle digests.

The Go code is embedded shallowly:

* `Content` is instantiated (as in the repository's tests) by an
  integer-keyed, integer-valued item; a `hashOk` flag models a
  `CalculateHash` implementation that can fail.
* SHA-256 is modelled as an injective combining function `Digest.sha` over
  the concatenated sequence of part digests (a `nil` byte-slice hash of a
  child contributes nothing to the concatenation, hence `childDigests`
  uses `filterMap`).
* The mutating Go functions use parent pointers to walk from a mutated
  node back to the root (`ReCalculateMerkleRoot`) and to reach siblings
  during `rebalance`.  The embedding performs the same computations
  top-down: each recursive call returns the rewritten subtree together
  with a status describing exactly what the Go control flow does at the
  ancestors (continue recomputing hashes up to the root, stop, split an
  overflowing child, or run the sibling/rebalance logic for an
  underflowing child).
* Recursion over the tree is by an explicit fuel parameter (structural in
  the fuel, so that concrete runs reduce by `rfl`).  Public wrappers pass
  `tree.size + 2` fuel; for every tree satisfying the structural B-tree
  invariants the height is at most the number of stored items, so this
  fuel is never exhausted (proved where needed).
-/

set_option maxRecDepth 10000

namespace MerkleBTree

/-- A stored item: mirrors the repository's `Item2` instantiation of the
`Content` interface (`Key int`, `Value int`), plus a `hashOk` flag modelling
whether its `CalculateHash` implementation succeeds. -/
structure MContent where
  key : Int
  value : Int
  hashOk : Bool
deriving DecidableEq, Repr

instance : Inhabited MContent := ⟨⟨0, 0, true⟩⟩

/-- `Item2.Comparator`: sign of the key comparison. -/
def comparator (a b : MContent) : Int :=
  if a.key > b.key then 1 else if a.key < b.key then -1 else 0

/-- Byte strings produced by digest computations, idealized: `content k v`
is the digest of an item (SHA-256 of its JSON encoding — injective on the
item), and `sha parts` is SHA-256 of the concatenation of the given part
digests (collision-free idealization). -/
inductive Digest where
  | content (key value : Int) : Digest
  | sha (parts : List Digest) : Digest

/-- `Node`: cached hash (`none` models a nil byte slice), ordered contents,
ordered children.  The Go parent pointer is not represented; upward walks
are modelled by the statuses returned from recursive calls. -/
inductive MNode : Type where
  | node (hash : Option Digest) (contents : List MContent) (children : List MNode) : MNode

instance : Inhabited MNode := ⟨.node none [] []⟩

def MNode.hash : MNode → Option Digest
  | .node h _ _ => h

def MNode.contents : MNode → List MContent
  | .node _ c _ => c

def MNode.children : MNode → List MNode
  | .node _ _ ch => ch

@[simp] theorem MNode.hash_node (h c ch) : (MNode.node h c ch).hash = h := rfl
@[simp] theorem MNode.contents_node (h c ch) : (MNode.node h c ch).contents = c := rfl
@[simp] theorem MNode.children_node (h c ch) : (MNode.node h c ch).children = ch := rfl

/-- `tree.maxChildren()`. -/
def maxChildren (m : Nat) : Nat := m

/-- `tree.minChildren()` — `(m + 1) / 2`. -/
def minChildren (m : Nat) : Nat := (m + 1) / 2

/-- `tree.maxContents()`. -/
def maxContents (m : Nat) : Nat := maxChildren m - 1

/-- `tree.minContents()`. -/
def minContents (m : Nat) : Nat := minChildren m - 1

/-- `tree.middle()` — `(m - 1) / 2`. -/
def middle (m : Nat) : Nat := (m - 1) / 2

/-- `Content.CalculateHash` of an item. -/
def contentDigest (c : MContent) : Except Unit Digest :=
  if c.hashOk then .ok (.content c.key c.value) else .error ()

/-- The content-hash loop of `Tree.CalculateHash`: digests of the node's
contents in order, aborting at the first failure. -/
def calcParts : List MContent → Except Unit (List Digest)
  | [] => .ok []
  | c :: cs =>
    match contentDigest c with
    | .error e => .error e
    | .ok d =>
      match calcParts cs with
      | .error e => .error e
      | .ok ds => .ok (d :: ds)

/-- The child-hash loop of `Tree.CalculateHash`: a child whose cached hash
is nil contributes no bytes. -/
def childDigests (children : List MNode) : List Digest :=
  children.filterMap MNode.hash

/-- `Tree.CalculateHash(node)`: on success the node's cached hash becomes
the combining hash of content digests followed by children digests; on a
content-digest failure the node is left unchanged. -/
def calculateHash (n : MNode) : Except Unit MNode :=
  match calcParts n.contents with
  | .error e => .error e
  | .ok ds => .ok (.node (some (.sha (ds ++ childDigests n.children))) n.contents n.children)

/-- A `tree.CalculateHash(node)` call whose error result is discarded by
the caller (as in `splitNonRoot`, `splitRoot`, `rebalance`). -/
def attemptHash (n : MNode) : MNode :=
  match calculateHash n with
  | .ok n' => n'
  | .error _ => n

/-- The loop of `tree.search(node, item)`: binary search with inclusive
integer bounds.  `fuel` only bounds the iteration count; the interval
shrinks at every step, so `contents.length + 1` iterations always
suffice. -/
def searchLoop (cs : List MContent) (item : MContent) (fuel : Nat) (low high : Int) : Nat × Bool :=
  match fuel with
  | 0 => (low.toNat, false)
  | fuel + 1 =>
    if low ≤ high then
      let mid := (high + low) / 2
      let compare := comparator item (cs.getD mid.toNat default)
      if compare > 0 then searchLoop cs item fuel (mid + 1) high
      else if compare < 0 then searchLoop cs item fuel low (mid - 1)
      else (mid.toNat, true)
    else (low.toNat, false)

/-- `tree.search(node, item)`: index (insertion point when not found) and
found flag. -/
def searchNode (cs : List MContent) (item : MContent) : Nat × Bool :=
  searchLoop cs item (cs.length + 1) 0 ((cs.length : Int) - 1)

/-- What the Go control flow does at the ancestors of an insertion site. -/
inductive UpIns where
  /-- `ReCalculateMerkleRoot` is walking up: each ancestor recomputes its
  hash (and the walk aborts on the first failure). -/
  | rehash
  /-- Nothing happens at the ancestors (a digest computation failed and the
  upward walk stopped). -/
  | stop
  /-- The node overflowed: the caller must split it
  (`splitNonRoot`/`splitRoot`). -/
  | over
deriving DecidableEq, Repr

/-- The found-branch of `insertIntoLeaf`/`insertIntoInternal`: overwrite the
stored item in place, then `ReCalculateMerkleRoot(node)` (whose error result
is discarded, aborting the upward walk). -/
def insertIntoFound (n : MNode) (pos : Nat) (c : MContent) : MNode × UpIns × Bool :=
  let n' := MNode.node n.hash (n.contents.set pos c) n.children
  match calculateHash n' with
  | .ok n'' => (n'', .rehash, false)
  | .error _ => (n', .stop, false)

/-- The part of `splitNonRoot(child)` that rewrites the parent: build
`left`/`right` from the overflowed child, hash them, splice the middle
content and the two nodes into the parent (`i` is the slot of `child` in
the parent's children — in Go the overflowed child was mutated in place at
that slot before being overwritten by `left`). -/
def splitChild (m : Nat) (parent : MNode) (i : Nat) (child : MNode) : MNode :=
  let mid := middle m
  let lrch :=
    if child.children.length = 0 then (([] : List MNode), ([] : List MNode))
    else (child.children.take (mid + 1), child.children.drop (mid + 1))
  let left := attemptHash (.node none (child.contents.take mid) lrch.1)
  let right := attemptHash (.node none (child.contents.drop (mid + 1)) lrch.2)
  let sep := child.contents.getD mid default
  let pos := (searchNode parent.contents sep).1
  let contents' := parent.contents.insertIdx pos sep
  let children0 := parent.children.set i child
  let children1 := children0.set pos left
  let children2 := children1.insertIdx (pos + 1) right
  MNode.node parent.hash contents' children2

/-- `tree.splitRoot()`. -/
def splitRootNode (m : Nat) (r : MNode) : MNode :=
  let mid := middle m
  let lrch :=
    if r.children.length = 0 then (([] : List MNode), ([] : List MNode))
    else (r.children.take (mid + 1), r.children.drop (mid + 1))
  let left := attemptHash (.node none (r.contents.take mid) lrch.1)
  let right := attemptHash (.node none (r.contents.drop (mid + 1)) lrch.2)
  attemptHash (.node none [r.contents.getD mid default] [left, right])

/-- `tree.insert(node, content)` (with `insertIntoLeaf`/`insertIntoInternal`
and the non-root portion of `split`): returns the rewritten subtree, the
ancestor status, and the `inserted` flag. -/
def insertGo (m : Nat) (fuel : Nat) (n : MNode) (c : MContent) : MNode × UpIns × Bool :=
  match fuel with
  | 0 => (n, .stop, false)
  | fuel + 1 =>
    let sr := searchNode n.contents c
    if sr.2 then insertIntoFound n sr.1 c
    else if n.children.length = 0 then
      -- insertIntoLeaf, not-found branch, then split(node)
      let n' := MNode.node n.hash (n.contents.insertIdx sr.1 c) n.children
      if n'.contents.length > maxContents m then (n', .over, true)
      else
        match calculateHash n' with
        | .ok n'' => (n'', .rehash, true)
        | .error _ => (n', .stop, true)
    else
      -- insertIntoInternal, not-found branch: descend
      let res := insertGo m fuel (n.children.getD sr.1 default) c
      match res.2.1 with
      | .rehash =>
        let n1 := MNode.node n.hash n.contents (n.children.set sr.1 res.1)
        match calculateHash n1 with
        | .ok n2 => (n2, .rehash, res.2.2)
        | .error _ => (n1, .stop, res.2.2)
      | .stop => (MNode.node n.hash n.contents (n.children.set sr.1 res.1), .stop, res.2.2)
      | .over =>
        -- splitNonRoot(child) rewired this node, attempted its hash, and
        -- called split(parent) on it
        let p' := splitChild m n sr.1 res.1
        if p'.contents.length > maxContents m then (attemptHash p', .over, res.2.2)
        else
          match calculateHash p' with
          | .ok p2 => (p2, .rehash, res.2.2)
          | .error _ => (p', .stop, res.2.2)

/-- `Tree`: root (if any), stored size counter, order. -/
structure MTree where
  root : Option MNode
  size : Nat
  m : Nat

/-- Fuel passed by the public wrappers.  For trees satisfying the B-tree
invariants the height never exceeds the number of stored items, so this
never runs out. -/
def treeFuel (t : MTree) : Nat := t.size + 2

/-- An `Item2`-style content whose digest computation succeeds. -/
def item (k v : Int) : MContent := ⟨k, v, true⟩

/-- `NewWith(order)`: `none` models the `panic` for `order < 3`. -/
def newWith (order : Nat) : Option MTree :=
  if order < 3 then none else some ⟨none, 0, order⟩

/-- `Tree.Put(item)`.  The `.error` branch models the `panic(err)` on the
empty-tree path and carries the tree state observable at the moment of the
panic (root already installed with a nil hash, size already incremented). -/
def putT (t : MTree) (c : MContent) : Except MTree MTree :=
  match t.root with
  | none =>
    let r0 : MNode := .node none [c] []
    match calculateHash r0 with
    | .ok r => .ok ⟨some r, t.size + 1, t.m⟩
    | .error _ => .error ⟨some r0, t.size + 1, t.m⟩
  | some r =>
    let res := insertGo t.m (treeFuel t) r c
    let newRoot :=
      match res.2.1 with
      | .over => splitRootNode t.m res.1
      | _ => res.1
    .ok ⟨some newRoot, t.size + (if res.2.2 then 1 else 0), t.m⟩

/-- `tree.searchRecursively(startNode, item)`, as a pure function returning
the stored content when found. -/
def searchRecGo (fuel : Nat) (n : MNode) (item : MContent) : Option MContent :=
  match fuel with
  | 0 => none
  | fuel + 1 =>
    let sr := searchNode n.contents item
    if sr.2 then some (n.contents.getD sr.1 default)
    else if n.children.length = 0 then none
    else searchRecGo fuel (n.children.getD sr.1 default) item

/-- The found/not-found outcome of `tree.searchRecursively(tree.Root, item)`
(which reports not-found immediately when `tree.Empty()`). -/
def searchT (t : MTree) (item : MContent) : Option MContent :=
  if t.size = 0 then none
  else
    match t.root with
    | none => none
    | some r => searchRecGo (treeFuel t) r item

/-- `Tree.Get(item)`. -/
def getT (t : MTree) (item : MContent) : MContent × Bool :=
  match searchT t item with
  | some c => (c, true)
  | none => (item, false)

/-- What the Go control flow does at the ancestors of a deletion site. -/
inductive UpDel where
  /-- `ReCalculateMerkleRoot` is walking up. -/
  | rehash
  /-- Nothing happens at the ancestors (borrow handled everything without
  recomputing the parent, or a digest computation failed). -/
  | stop
  /-- The node underflowed: the parent must run the borrow/merge logic of
  `rebalance`, locating the node via the recorded deleted item. -/
  | needReb (deleted : MContent)
deriving DecidableEq, Repr

/-- Entry check of `tree.rebalance(node, deletedItem)` at the node the
content was deleted from: no rebalancing needed means
`ReCalculateMerkleRoot(node)`; an underflowing root finds no siblings,
falls through every branch and returns without recomputing any hash. -/
def rebalanceStart (m : Nat) (isRoot : Bool) (n : MNode) (d : MContent) : MNode × UpDel :=
  if n.contents.length ≥ minContents m then
    match calculateHash n with
    | .ok n' => (n', .rehash)
    | .error _ => (n, .stop)
  else if isRoot then (n, .stop)
  else (n, .needReb d)

/-- The borrow/merge portion of `tree.rebalance(node, deletedItem)`, driven
from the parent `p` (in Go it runs at `node` using the parent pointer):
`child` is the underflowed node, `i` its slot in `p.Children`, `d` the
deleted item used by `leftSibling`/`rightSibling` to locate the slot.
Returns the rewritten subtree at `p`'s position together with the status
for `p`'s own ancestors. -/
def rebalanceAtParent (m : Nat) (isRoot : Bool) (p : MNode) (i : Nat) (child : MNode)
    (d : MContent) : MNode × UpDel :=
  let children0 := p.children.set i child
  let idx := (searchNode p.contents d).1
  if (1 ≤ idx ∧ idx - 1 < children0.length) ∧
      (children0.getD (idx - 1) default).contents.length > minContents m then
    -- borrow from left sibling (rotate right); Go recomputes only the
    -- hashes of `node` and the sibling, then RETURNS: the parent's hash
    -- (and every ancestor's) is left as it was
    let ls := children0.getD (idx - 1) default
    let sep := p.contents.getD (idx - 1) default
    let nodeChildren :=
      if ls.children.length = 0 then child.children
      else ls.children.getLastD default :: child.children
    let lsChildren := if ls.children.length = 0 then ls.children else ls.children.dropLast
    let nodeNew := attemptHash (.node child.hash (sep :: child.contents) nodeChildren)
    let lsNew := attemptHash (.node ls.hash ls.contents.dropLast lsChildren)
    let pContents := p.contents.set (idx - 1) (ls.contents.getLastD default)
    (MNode.node p.hash pContents ((children0.set i nodeNew).set (idx - 1) lsNew), .stop)
  else if (idx + 1 < children0.length) ∧
      (children0.getD (idx + 1) default).contents.length > minContents m then
    -- borrow from right sibling (rotate left); same stale-ancestor return
    let rs := children0.getD (idx + 1) default
    let sep := p.contents.getD idx default
    let nodeChildren :=
      if rs.children.length = 0 then child.children
      else child.children ++ [rs.children.headD default]
    let rsChildren := if rs.children.length = 0 then rs.children else rs.children.eraseIdx 0
    let nodeNew := attemptHash (.node child.hash (child.contents ++ [sep]) nodeChildren)
    let rsNew := attemptHash (.node rs.hash (rs.contents.eraseIdx 0) rsChildren)
    let pContents := p.contents.set idx (rs.contents.headD default)
    (MNode.node p.hash pContents ((children0.set i nodeNew).set (idx + 1) rsNew), .stop)
  else
    -- merge with a sibling (right preferred), then the tail of rebalance
    let merged :=
      if idx + 1 < children0.length then
        let rs := children0.getD (idx + 1) default
        let sep := p.contents.getD idx default
        let nd := attemptHash
          (.node child.hash (child.contents ++ [sep] ++ rs.contents) (child.children ++ rs.children))
        some (nd, MNode.node p.hash (p.contents.eraseIdx idx) ((children0.set i nd).eraseIdx (idx + 1)), sep)
      else if 1 ≤ idx ∧ idx - 1 < children0.length then
        let ls := children0.getD (idx - 1) default
        let sep := p.contents.getD (idx - 1) default
        let nd := attemptHash
          (.node child.hash (ls.contents ++ [sep] ++ child.contents) (ls.children ++ child.children))
        some (nd, MNode.node p.hash (p.contents.eraseIdx (idx - 1)) ((children0.set i nd).eraseIdx (idx - 1)), sep)
      else none
    let theNode := match merged with | some (nd, _, _) => nd | none => child
    let p1 := match merged with | some (_, pp, _) => pp | none => MNode.node p.hash p.contents children0
    let d1 := match merged with | some (_, _, sep) => sep | none => d
    if isRoot ∧ p1.contents.length = 0 then
      -- "make the merged node the root": tree.Root = node; CalculateHash(tree.Root)
      (attemptHash theNode, .stop)
    else
      -- tree.rebalance(node.Parent, deletedItem)
      if p1.contents.length ≥ minContents m then
        match calculateHash p1 with
        | .ok p2 => (p2, .rehash)
        | .error _ => (p1, .stop)
      else if isRoot then (p1, .stop)
      else (p1, .needReb d1)

/-- `tree.right(node)` combined with the predecessor extraction of the
internal-node case of `tree.delete`: descend to the right-most leaf, remove
its last content, start `rebalance` there, and run the rebalance logic at
each right-spine ancestor on the way back.  Returns the rewritten subtree,
the extracted largest content, and the ancestor status. -/
def removeLargestGo (m : Nat) (fuel : Nat) (n : MNode) : MNode × MContent × UpDel :=
  match fuel with
  | 0 => (n, default, .stop)
  | fuel + 1 =>
    if n.children.length = 0 then
      let largest := n.contents.getLastD default
      let n' := MNode.node n.hash n.contents.dropLast n.children
      let r := rebalanceStart m false n' largest
      (r.1, largest, r.2)
    else
      let li := n.children.length - 1
      let res := removeLargestGo m fuel (n.children.getD li default)
      match res.2.2 with
      | .needReb d =>
        let r := rebalanceAtParent m false (MNode.node n.hash n.contents n.children) li res.1 d
        (r.1, res.2.1, r.2)
      | .rehash =>
        let n1 := MNode.node n.hash n.contents (n.children.set li res.1)
        match calculateHash n1 with
        | .ok n2 => (n2, res.2.1, .rehash)
        | .error _ => (n1, res.2.1, .stop)
      | .stop => (MNode.node n.hash n.contents (n.children.set li res.1), res.2.1, .stop)

/-- `tree.delete(node, index)` reached through the search descent of
`tree.Remove`: returns the rewritten subtree, the ancestor status, and
whether the deletion happened at a leaf (Go nils the root afterwards only
on that path). -/
def removeGo (m : Nat) (fuel : Nat) (isRoot : Bool) (n : MNode) (it : MContent) :
    MNode × UpDel × Bool :=
  match fuel with
  | 0 => (n, .stop, false)
  | fuel + 1 =>
    let sr := searchNode n.contents it
    if sr.2 then
      if n.children.length = 0 then
        -- leaf deletion
        let deleted := n.contents.getD sr.1 default
        let n' := MNode.node n.hash (n.contents.eraseIdx sr.1) n.children
        let r := rebalanceStart m isRoot n' deleted
        (r.1, r.2, true)
      else
        -- internal deletion: replace with in-order predecessor
        let res := removeLargestGo m fuel (n.children.getD sr.1 default)
        let n1 := MNode.node n.hash (n.contents.set sr.1 res.2.1) (n.children.set sr.1 res.1)
        match res.2.2 with
        | .needReb d =>
          let r := rebalanceAtParent m isRoot n1 sr.1 res.1 d
          (r.1, r.2, false)
        | .rehash =>
          match calculateHash n1 with
          | .ok n2 => (n2, .rehash, false)
          | .error _ => (n1, .stop, false)
        | .stop => (n1, .stop, false)
    else if n.children.length = 0 then (n, .stop, false)
    else
      let res := removeGo m fuel false (n.children.getD sr.1 default) it
      let n1 := MNode.node n.hash n.contents (n.children.set sr.1 res.1)
      match res.2.1 with
      | .needReb d =>
        let r := rebalanceAtParent m isRoot n1 sr.1 res.1 d
        (r.1, r.2, res.2.2)
      | .rehash =>
        match calculateHash n1 with
        | .ok n2 => (n2, .rehash, res.2.2)
        | .error _ => (n1, .stop, res.2.2)
      | .stop => (n1, .stop, res.2.2)

/-- `Tree.Remove(item)`: search first; when found, delete and decrement the
size; on the leaf path, nil the root if its contents emptied. -/
def removeT (t : MTree) (it : MContent) : MTree :=
  match searchT t it with
  | none => t
  | some _ =>
    match t.root with
    | none => t
    | some r =>
      let res := removeGo t.m (treeFuel t) true r it
      let root' := if res.2.2 ∧ res.1.contents.length = 0 then none else some res.1
      ⟨root', t.size - 1, t.m⟩

/-- `Tree.Empty()`. -/
def emptyT (t : MTree) : Bool := t.size = 0

/-- `Tree.MerkleBTreeRoot()`, with the hex string abstracted to the digest
it encodes: `none` models the empty string `""` (returned both when the
root is nil and when the root's cached hash is a nil byte slice). -/
def merkleBTreeRoot (t : MTree) : Option Digest :=
  match t.root with
  | none => none
  | some r => r.hash

/-- Bottom-up recomputation of every digest in a subtree, as performed on
the sub-root levels by `tree.calculateMerkleRoot` (each node's hash is
reset to nil and `CalculateHash` is attempted with the error discarded, so
a failing content leaves that node's hash nil). -/
def recomputeNode (fuel : Nat) (n : MNode) : MNode :=
  match fuel with
  | 0 => n
  | fuel + 1 =>
    let cs := n.children.map (recomputeNode fuel)
    match calcParts n.contents with
    | .ok ds => .node (some (.sha (ds ++ childDigests cs))) n.contents cs
    | .error _ => .node none n.contents cs

/-- `tree.calculateMerkleRoot()`: the loop
`for i := len(nodes)-1; i > 0; i--` recomputes every level of the tree
EXCEPT level 0, then the function returns the root's cached hash
unchanged.  (For trees whose leaves are at equal depth — every tree this
development applies it to — the level-order walk recomputes exactly the
strict descendants of the root, bottom-up, which is what the
`children.map` below performs.) -/
def calculateMerkleRootT (t : MTree) : Option Digest :=
  match t.root with
  | none => none
  | some r => (MNode.node r.hash r.contents (r.children.map (recomputeNode (treeFuel t)))).hash

/-- Modelled from the spec (§3 invariant 5, §4.5, §8): the *independent
from-scratch post-order recomputation* of the whole tree's digests,
including the root ('`rootDigestHex()` after any mutation equals an
independently recomputed full post-order digest of the same tree').  This
is the oracle the spec demands; note `calculateMerkleRootT` above (the
code's own oracle) skips the root level. -/
def specFullRecomputeRoot (t : MTree) : Option Digest :=
  match t.root with
  | none => none
  | some r => (recomputeNode (treeFuel t) r).hash

/-- Fold a list of puts (ignoring the panic state, which never occurs for
`hashOk` contents). -/
def putList (t : MTree) (cs : List MContent) : MTree :=
  cs.foldl (fun t c => match putT t c with | .ok t' => t' | .error _ => t) t

/-- Fold a list of removes. -/
def removeList (t : MTree) (cs : List MContent) : MTree :=
  cs.foldl removeT t

/-! ### Observation helpers (not part of the Go code) -/

/-- All keys stored anywhere in a subtree, to depth `fuel` (document order;
used only as a set). -/
def nodeKeys (fuel : Nat) (n : MNode) : List Int :=
  match fuel with
  | 0 => []
  | fuel + 1 => n.contents.map MContent.key ++ (n.children.map (nodeKeys fuel)).flatten

/-- All keys stored in the tree. -/
def keysT (t : MTree) : List Int :=
  match t.root with
  | none => []
  | some r => nodeKeys (treeFuel t) r

/-- In-order key sequence of a subtree (child₀, c₁, child₁, …, cₖ, childₖ). -/
def inorderGo (fuel : Nat) (n : MNode) : List Int :=
  match fuel with
  | 0 => []
  | fuel + 1 =>
    match n.children with
    | [] => n.contents.map MContent.key
    | ch0 :: chs =>
      inorderGo fuel ch0 ++
        ((n.contents.zip chs).map (fun p => p.1.key :: inorderGo fuel p.2)).flatten ++
        (n.contents.drop chs.length).map MContent.key

/-- Height of a subtree (0 for a missing node at exhausted fuel; a single
node has height 1, as in `Node.height`). -/
def heightGo (fuel : Nat) (n : MNode) : Nat :=
  match fuel with
  | 0 => 0
  | fuel + 1 => 1 + ((n.children.map (heightGo fuel)).foldr max 0)

/-- The key skeleton of a tree: each node's content keys plus the skeletons
of its children.  Captures "tree shape" for the scenario claims. -/
inductive KTree where
  | mk (ks : List Int) (children : List KTree) : KTree

/-- Skeleton of a subtree. -/
def shapeGo (fuel : Nat) (n : MNode) : KTree :=
  match fuel with
  | 0 => .mk [] []
  | fuel + 1 => .mk (n.contents.map MContent.key) (n.children.map (shapeGo fuel))

/-- Skeleton of the whole tree (`none` for an empty tree). -/
def shapeT (t : MTree) : Option KTree :=
  match t.root with
  | none => none
  | some r => some (shapeGo (treeFuel t) r)

/-! ### Basic lemmas about the hash helpers -/

theorem attemptHash_contents (n : MNode) : (attemptHash n).contents = n.contents := by
  unfold attemptHash calculateHash
  cases calcParts n.contents <;> simp

theorem attemptHash_children (n : MNode) : (attemptHash n).children = n.children := by
  unfold attemptHash calculateHash
  cases calcParts n.contents <;> simp

/-- `calculateMerkleRoot` never recomputes level 0, so its return value is
always the root's cached hash — the very value `MerkleBTreeRoot` reports.
The repository's test oracle `assertValidMerkleRoot(t, tree.MerkleBTreeRoot(),
tree.calculateMerkleRoot())` is therefore vacuous. -/
theorem calculateMerkleRoot_eq_cached (t : MTree) :
    calculateMerkleRootT t = merkleBTreeRoot t := by
  unfold calculateMerkleRootT merkleBTreeRoot
  cases t.root <;> simp

/-! ### Concrete program runs used by the scenario claims -/

/-- The empty order-3 tree (`NewWith(3)`). -/
def tree3 : MTree := ⟨none, 0, 3⟩

/-- Order-3 tree after `Put(1..4)` then `Remove(1)`; the removal empties
the leaf `{1}` and `rebalance` resolves the underflow by borrowing from the
right sibling `{3,4}` (rotate left). -/
def c1Tree : MTree :=
  removeT (putList tree3 [item 1 1, item 2 2, item 3 3, item 4 4]) (item 1 0)

/-- Scenario A: order-3 tree after inserting keys 1..7 in order. -/
def scenarioATree : MTree :=
  putList tree3 [item 1 1, item 2 2, item 3 3, item 4 4, item 5 5, item 6 6, item 7 7]

/-- Scenario B: Scenario A followed by `Remove(7)`. -/
def scenarioBTree : MTree := removeT scenarioATree (item 7 0)

/-! ### C1 -/

/-- C1: the claim states that after every mutation (including rebalances
that resolve by borrowing from a sibling) the cached root digest equals an
independent from-scratch post-order recomputation of the whole tree's
digests.  The code violates this: on the borrow paths `rebalance`
recomputes only the two sibling nodes' hashes and returns, leaving every
ancestor's digest (the root's included) stale.  At the failing input
(order 3, `Put(1..4)` then `Remove(1)`) the cached root digest still binds
the pre-rotation tree (separator 2, children `{1}` and `{3,4}`), while the
independent recomputation of the current tree (separator 3, children `{2}`
and `{4}`) differs.  The code's own `calculateMerkleRoot` masks this in the
repository's tests because it skips recomputing the root level and returns
the cached root hash itself. -/
theorem c1_root_digest_stale_after_borrow :
    merkleBTreeRoot c1Tree =
      some (.sha [.content 2 2, .sha [.content 1 1], .sha [.content 3 3, .content 4 4]]) ∧
    specFullRecomputeRoot c1Tree =
      some (.sha [.content 3 3, .sha [.content 2 2], .sha [.content 4 4]]) ∧
    merkleBTreeRoot c1Tree ≠ specFullRecomputeRoot c1Tree ∧
    calculateMerkleRootT c1Tree = merkleBTreeRoot c1Tree := by
  refine ⟨rfl, rfl, ?_, calculateMerkleRoot_eq_cached c1Tree⟩
  intro h
  rw [show merkleBTreeRoot c1Tree =
      some (.sha [.content 2 2, .sha [.content 1 1], .sha [.content 3 3, .content 4 4]]) from rfl,
    show specFullRecomputeRoot c1Tree =
      some (.sha [.content 3 3, .sha [.content 2 2], .sha [.content 4 4]]) from rfl] at h
  simp [Digest.sha.injEq, Digest.content.injEq] at h

/-! ### C3 -/

/-- C3: order-3 tree from inserting 1..7 in order has root `{4}` with
children `{2}` (leaves `{1}`, `{3}`) and `{6}` (leaves `{5}`, `{7}`), and
its cached root digest agrees with the full recomputation; removing key 7
then yields root `{2,4}` with leaf children `{1}`, `{3}`, `{5,6}`. -/
theorem c3_scenario_shapes :
    shapeT scenarioATree =
      some (.mk [4] [.mk [2] [.mk [1] [], .mk [3] []], .mk [6] [.mk [5] [], .mk [7] []]]) ∧
    scenarioATree.size = 7 ∧
    merkleBTreeRoot scenarioATree = specFullRecomputeRoot scenarioATree ∧
    (merkleBTreeRoot scenarioATree).isSome = true ∧
    shapeT scenarioBTree = some (.mk [2, 4] [.mk [1] [], .mk [3] [], .mk [5, 6] []]) ∧
    scenarioBTree.size = 6 :=
  ⟨rfl, rfl, rfl, rfl, rfl, rfl⟩

/-! ### C5 -/

/-- C5 (counterexample): on an empty order-3 tree, `Put` of an item whose
digest computation fails does panic, but the state observable at the panic
has the root already installed (holding the item, with a nil digest) and
size already 1 — not "root absent and size 0" as the claim states. -/
theorem c5_counterexample :
    putT ⟨none, 0, 3⟩ ⟨1, 0, false⟩ =
      .error ⟨some (.node none [⟨1, 0, false⟩] []), 1, 3⟩ ∧
    ¬((⟨some (.node none [⟨1, 0, false⟩] []), 1, 3⟩ : MTree).root = none ∧
      (⟨some (.node none [⟨1, 0, false⟩] []), 1, 3⟩ : MTree).size = 0) :=
  ⟨rfl, by simp⟩

/-- C5 (amended): `Put` on an empty tree with an item whose digest
computation fails propagates the failure (a panic), but the tree is NOT
left unmutated: at the moment of the panic the root node holding the item
is installed with a nil digest and the size counter is already
incremented. -/
theorem c5_amended (t : MTree) (c : MContent)
    (hroot : t.root = none) (hok : c.hashOk = false) :
    putT t c = .error ⟨some (.node none [c] []), t.size + 1, t.m⟩ := by
  simp only [putT, hroot, calculateHash, calcParts, contentDigest, hok]
  simp

theorem c5_amended_witness :
    (⟨none, 0, 3⟩ : MTree).root = none ∧ (⟨1, 0, false⟩ : MContent).hashOk = false ∧
    putT ⟨none, 0, 3⟩ ⟨1, 0, false⟩ =
      .error ⟨some (.node none [⟨1, 0, false⟩] []), 1, 3⟩ :=
  ⟨rfl, rfl, c5_amended ⟨none, 0, 3⟩ ⟨1, 0, false⟩ rfl rfl⟩

/-! ### C7 -/

/-- C7: construction with order < 3 is fatal and yields no tree;
construction with order ≥ 3 yields an empty tree of that order, and
neither `Put` (on success or on panic) nor `Remove` ever changes the
stored order, so every capacity threshold derived from it is fixed. -/
theorem c7_newWith_order (order : Nat) :
    (order < 3 → newWith order = none) ∧
    (3 ≤ order → newWith order = some ⟨none, 0, order⟩) ∧
    (∀ t c t', putT t c = Except.ok t' → t'.m = t.m) ∧
    (∀ t c t', putT t c = Except.error t' → t'.m = t.m) ∧
    (∀ t c, (removeT t c).m = t.m) := by
  refine ⟨?_, ?_, ?_, ?_, ?_⟩
  · intro h; simp [newWith, h]
  · intro h; simp [newWith, Nat.not_lt.mpr h]
  · intro t c t' h
    unfold putT at h
    split at h
    · dsimp only at h
      split at h
      · simp only [Except.ok.injEq] at h; subst h; rfl
      · simp at h
    · simp only [Except.ok.injEq] at h; subst h; rfl
  · intro t c t' h
    unfold putT at h
    split at h
    · dsimp only at h
      split at h
      · simp at h
      · simp only [Except.error.injEq] at h; subst h; rfl
    · simp at h
  · intro t c
    unfold removeT
    split
    · rfl
    · split <;> rfl

theorem c7_newWith_order_witness :
    2 < 3 ∧ newWith 2 = none ∧ 3 ≤ 3 ∧ newWith 3 = some ⟨none, 0, 3⟩ :=
  ⟨by decide, (c7_newWith_order 2).1 (by decide), by decide,
    (c7_newWith_order 3).2.1 (by decide)⟩

/-! ### C9 -/

/-- C9: the derived capacity constants of an order-`m` tree satisfy
`maxChildren = m`, `minChildren = ⌈m/2⌉` (characterized arithmetically),
`maxContents = m − 1`, `minContents = minChildren − 1`, the split pivot is
`⌊(m−1)/2⌋`, and splitting a node that holds `m` items puts `⌊(m−1)/2⌋` of
them in the left node and the remaining `m − ⌊(m−1)/2⌋ − 1` in the right
node, so for even `m` the right node receives one more item than the
left. -/
theorem c9_capacity_constants (m : Nat) (hm : 3 ≤ m) (r : MNode)
    (hr : r.contents.length = m) :
    maxChildren m = m ∧
    (m ≤ 2 * minChildren m ∧ 2 * minChildren m ≤ m + 1) ∧
    maxContents m = m - 1 ∧
    minContents m = minChildren m - 1 ∧
    (2 * middle m ≤ m - 1 ∧ m - 1 < 2 * middle m + 2) ∧
    (∃ left right, (splitRootNode m r).children = [left, right] ∧
      left.contents.length = (m - 1) / 2 ∧
      right.contents.length = m - (m - 1) / 2 - 1 ∧
      (m % 2 = 0 → right.contents.length = left.contents.length + 1)) := by
  refine ⟨rfl, ?_, rfl, rfl, ?_, ?_⟩
  · unfold minChildren; omega
  · unfold middle; omega
  · simp only [splitRootNode]
    rw [attemptHash_children]
    refine ⟨_, _, rfl, ?_, ?_, ?_⟩
    · rw [attemptHash_contents]
      simp only [MNode.contents_node, List.length_take, hr, middle]
      omega
    · rw [attemptHash_contents]
      simp only [MNode.contents_node, List.length_drop, hr, middle]
      omega
    · intro he
      rw [attemptHash_contents, attemptHash_contents]
      simp only [MNode.contents_node, List.length_take, List.length_drop, hr, middle]
      omega

/-! ### Search soundness (no ordering assumptions needed) -/

theorem comparator_eq_zero {a b : MContent} (h : comparator a b = 0) : a.key = b.key := by
  unfold comparator at h
  split at h
  · omega
  · split at h
    · omega
    · omega

/-- If the binary-search loop reports found, the probed (in-range) slot
holds the key. -/
theorem searchLoop_found_mem (cs : List MContent) (it : MContent) (fuel : Nat) :
    ∀ low high : Int, 0 ≤ low → high < cs.length →
      (searchLoop cs it fuel low high).2 = true → it.key ∈ cs.map MContent.key := by
  induction fuel with
  | zero => intro low high _ _ h; simp [searchLoop] at h
  | succ fuel ih =>
    intro low high hlo hhi h
    unfold searchLoop at h
    split at h
    · rename_i hle
      have hmid1 : low ≤ (high + low) / 2 := by omega
      have hmid2 : (high + low) / 2 ≤ high := by omega
      dsimp only at h
      split at h
      · exact ih _ _ (by omega) hhi h
      · split at h
        · exact ih _ _ hlo (by omega) h
        · rename_i hgt hlt
          have hcmp : comparator it (cs.getD ((high + low) / 2).toNat default) = 0 := by omega
          have hidx : ((high + low) / 2).toNat < cs.length := by omega
          have hkey := comparator_eq_zero hcmp
          rw [List.getD_eq_getElem cs default hidx] at hkey
          rw [hkey]
          exact List.mem_map_of_mem MContent.key (cs.getElem_mem hidx)
    · simp at h

theorem searchNode_found_mem (cs : List MContent) (it : MContent)
    (h : (searchNode cs it).2 = true) : it.key ∈ cs.map MContent.key :=
  searchLoop_found_mem cs it (cs.length + 1) 0 ((cs.length : Int) - 1)
    (by omega) (by omega) h

theorem searchRecGo_default (fuel : Nat) (it : MContent) :
    searchRecGo fuel (default : MNode) it = none := by
  cases fuel <;> rfl

/-- A key present nowhere in the subtree is never found by the recursive
search. -/
theorem searchRecGo_eq_none (fuel : Nat) (n : MNode) (it : MContent)
    (habs : it.key ∉ nodeKeys fuel n) : searchRecGo fuel n it = none := by
  induction fuel generalizing n with
  | zero => rfl
  | succ fuel ih =>
    unfold searchRecGo
    simp only
    by_cases hf : (searchNode n.contents it).2 = true
    · exfalso
      apply habs
      unfold nodeKeys
      exact List.mem_append_left _ (searchNode_found_mem _ _ hf)
    · rw [if_neg hf]
      by_cases hleaf : n.children.length = 0
      · rw [if_pos hleaf]
      · rw [if_neg hleaf]
        by_cases hpos : (searchNode n.contents it).1 < n.children.length
        · apply ih
          intro hmem
          apply habs
          unfold nodeKeys
          apply List.mem_append_right
          apply List.mem_flatten.mpr
          refine ⟨nodeKeys fuel (n.children.getD (searchNode n.contents it).1 default), ?_, hmem⟩
          rw [List.getD_eq_getElem n.children default hpos]
          exact List.mem_map_of_mem _ (n.children.getElem_mem hpos)
        · rw [List.getD_eq_default n.children default (by omega)]
          exact searchRecGo_default fuel it

/-! ### C8 -/

/-- C8: on any tree (the empty tree included), `Get` of an item whose key
is stored nowhere returns the queried item itself with `found = false`,
and `Remove` of such an item returns the tree completely unchanged; neither
operation has an error path. -/
theorem c8_get_remove_missing (t : MTree) (it : MContent) (habs : it.key ∉ keysT t) :
    getT t it = (it, false) ∧ removeT t it = t := by
  have hs : searchT t it = none := by
    unfold searchT
    split
    · rfl
    · unfold keysT at habs
      cases hr : t.root with
      | none => rfl
      | some r =>
        apply searchRecGo_eq_none
        rw [hr] at habs
        exact habs
  constructor
  · unfold getT
    rw [hs]
  · unfold removeT
    rw [hs]

theorem c8_get_remove_missing_witness :
    (item 99 5).key ∉ keysT scenarioATree ∧
    (getT scenarioATree (item 99 5) = (item 99 5, false) ∧
      removeT scenarioATree (item 99 5) = scenarioATree) :=
  ⟨by decide, c8_get_remove_missing scenarioATree (item 99 5) (by decide)⟩

theorem c9_capacity_constants_witness :
    3 ≤ 4 ∧ (MNode.node none [item 1 1, item 2 2, item 3 3, item 4 4] []).contents.length = 4 ∧
    (∃ left right,
      (splitRootNode 4 (MNode.node none [item 1 1, item 2 2, item 3 3, item 4 4] [])).children =
        [left, right] ∧
      left.contents.length = (4 - 1) / 2 ∧
      right.contents.length = 4 - (4 - 1) / 2 - 1 ∧
      (4 % 2 = 0 → right.contents.length = left.contents.length + 1)) :=
  ⟨by decide, rfl,
    (c9_capacity_constants 4 (by decide)
      (MNode.node none [item 1 1, item 2 2, item 3 3, item 4 4] []) rfl).2.2.2.2.2⟩

/-! ### Structural well-formedness

`wfGo m fuel minC maxC lo hi n` returns `some h` iff the subtree rooted at
`n` is a structurally valid B-tree fragment of uniform leaf depth `h`:

* `minC ≤ |contents| ≤ maxC` at `n` itself (callers pass
  `minContents m`/`maxContents m` for a non-root node, `1`/`maxContents m`
  for the root, and the exact transient counts for a node amid a
  split/rebalance);
* all keys strictly ascending and strictly inside the window `(lo, hi)`;
* a leaf has no children and depth 1; an internal node has
  `|contents| + 1` children, each well-formed in the window delimited by
  the neighbouring separator keys, all of equal depth `h − 1`.

Digests are deliberately ignored: the structural claims (C2, C4, C6, C10)
do not depend on them. -/

/-- Lower bound of child `i`: the window's `lo` for the first child, else
the separator to its left. -/
def lowAt (lo : Option Int) (ks : List Int) (i : Nat) : Option Int :=
  if i = 0 then lo else some (ks.getD (i - 1) 0)

/-- Upper bound of child `i`: the window's `hi` for the last child, else
the separator to its right. -/
def highAt (hi : Option Int) (ks : List Int) (i : Nat) : Option Int :=
  if i = ks.length then hi else some (ks.getD i 0)

/-- `k` lies strictly inside the window `(lo, hi)`. -/
def inBounds (lo hi : Option Int) (k : Int) : Bool :=
  (match lo with | none => true | some l => decide (l < k)) &&
  (match hi with | none => true | some h => decide (k < h))

def wfGo (m fuel minC maxC : Nat) (lo hi : Option Int) (n : MNode) : Option Nat :=
  match fuel with
  | 0 => none
  | fuel + 1 =>
    let ks := n.contents.map MContent.key
    if minC ≤ n.contents.length ∧ n.contents.length ≤ maxC ∧
        List.Pairwise (· < ·) ks ∧ (∀ k ∈ ks, inBounds lo hi k = true) then
      if n.children.length = 0 then some 1
      else if n.children.length = n.contents.length + 1 then
        match wfGo m fuel (minContents m) (maxContents m) (lowAt lo ks 0) (highAt hi ks 0)
            (n.children.getD 0 default) with
        | none => none
        | some h0 =>
          if (List.range n.children.length).all (fun i =>
              wfGo m fuel (minContents m) (maxContents m) (lowAt lo ks i) (highAt hi ks i)
                (n.children.getD i default) = some h0) then some (h0 + 1)
          else none
      else none
    else none

/-- Multiset of all keys in a subtree. -/
def keysM (fuel : Nat) (n : MNode) : Multiset Int :=
  match fuel with
  | 0 => 0
  | fuel + 1 => (n.contents.map MContent.key : Multiset Int) + (n.children.map (keysM fuel)).sum

/-- Multiset of all keys in a tree. -/
def keysMT (t : MTree) : Multiset Int :=
  match t.root with
  | none => 0
  | some r => keysM (treeFuel t) r

/-- The tree-level invariant, as a decidable check: order at least 3, and
either an empty root with size 0, or a root that is well-formed (with the
root's relaxed lower content bound) and holds exactly `size` keys. -/
def wfB (t : MTree) : Bool :=
  decide (3 ≤ t.m) &&
  match t.root with
  | none => decide (t.size = 0)
  | some r =>
    (wfGo t.m (t.size + 1) 1 (maxContents t.m) none none r).isSome &&
      decide (Multiset.card (keysM (t.size + 1) r) = t.size)

/-- The tree-level invariant. -/
def wfT (t : MTree) : Prop := wfB t = true

instance (t : MTree) : Decidable (wfT t) :=
  inferInstanceAs (Decidable (wfB t = true))

/-! ### Structure is independent of cached digests -/

theorem wfGo_hash_any (m fuel minC maxC : Nat) (lo hi : Option Int)
    (h1 h2 : Option Digest) (cs : List MContent) (ch : List MNode) :
    wfGo m fuel minC maxC lo hi (MNode.node h1 cs ch) =
      wfGo m fuel minC maxC lo hi (MNode.node h2 cs ch) := by
  cases fuel <;> rfl

theorem keysM_hash_any (fuel : Nat) (h1 h2 : Option Digest)
    (cs : List MContent) (ch : List MNode) :
    keysM fuel (MNode.node h1 cs ch) = keysM fuel (MNode.node h2 cs ch) := by
  cases fuel <;> rfl

theorem calculateHash_ok_parts {n n' : MNode} (h : calculateHash n = .ok n') :
    n'.contents = n.contents ∧ n'.children = n.children := by
  unfold calculateHash at h
  split at h
  · cases h
  · cases h
    exact ⟨rfl, rfl⟩

/-- The result of a `CalculateHash` attempt (taken or not) has the same
contents and children as the input. -/
theorem hashMatch_skeleton (n : MNode) :
    (attemptHash n).contents = n.contents ∧ (attemptHash n).children = n.children :=
  ⟨attemptHash_contents n, attemptHash_children n⟩

theorem wfGo_attemptHash (m fuel minC maxC : Nat) (lo hi : Option Int) (n : MNode) :
    wfGo m fuel minC maxC lo hi (attemptHash n) = wfGo m fuel minC maxC lo hi n := by
  cases n with
  | node h cs ch =>
    unfold attemptHash
    rcases hch : calculateHash (MNode.node h cs ch) with e | n'
    · rfl
    · obtain ⟨h1, h2⟩ := calculateHash_ok_parts hch
      cases n' with
      | node h' cs' ch' =>
        simp only [MNode.contents_node, MNode.children_node] at h1 h2
        subst h1; subst h2
        exact wfGo_hash_any ..

theorem keysM_attemptHash (fuel : Nat) (n : MNode) :
    keysM fuel (attemptHash n) = keysM fuel n := by
  cases n with
  | node h cs ch =>
    unfold attemptHash
    rcases hch : calculateHash (MNode.node h cs ch) with e | n'
    · rfl
    · obtain ⟨h1, h2⟩ := calculateHash_ok_parts hch
      cases n' with
      | node h' cs' ch' =>
        simp only [MNode.contents_node, MNode.children_node] at h1 h2
        subst h1; subst h2
        exact keysM_hash_any ..

/-! ### Introduction and elimination for `wfGo` -/

theorem wfGo_leaf_intro {m fuel minC maxC : Nat} {lo hi : Option Int} {n : MNode}
    (hcnt : minC ≤ n.contents.length ∧ n.contents.length ≤ maxC)
    (hpair : List.Pairwise (· < ·) (n.contents.map MContent.key))
    (hbnd : ∀ k ∈ n.contents.map MContent.key, inBounds lo hi k = true)
    (hch : n.children.length = 0) :
    wfGo m (fuel + 1) minC maxC lo hi n = some 1 := by
  unfold wfGo
  rw [if_pos ⟨hcnt.1, hcnt.2, hpair, hbnd⟩, if_pos hch]

theorem wfGo_internal_intro {m fuel minC maxC : Nat} {lo hi : Option Int} {n : MNode}
    {h0 : Nat}
    (hcnt : minC ≤ n.contents.length ∧ n.contents.length ≤ maxC)
    (hpair : List.Pairwise (· < ·) (n.contents.map MContent.key))
    (hbnd : ∀ k ∈ n.contents.map MContent.key, inBounds lo hi k = true)
    (hlen : n.children.length = n.contents.length + 1)
    (hkids : ∀ i, i < n.children.length →
      wfGo m fuel (minContents m) (maxContents m)
        (lowAt lo (n.contents.map MContent.key) i)
        (highAt hi (n.contents.map MContent.key) i)
        (n.children.getD i default) = some h0) :
    wfGo m (fuel + 1) minC maxC lo hi n = some (h0 + 1) := by
  unfold wfGo
  rw [if_pos ⟨hcnt.1, hcnt.2, hpair, hbnd⟩, if_neg (by omega), if_pos hlen]
  rw [hkids 0 (by omega)]
  dsimp only
  rw [if_pos]
  simp only [List.all_eq_true, List.mem_range, decide_eq_true_eq]
  intro i hi
  exact hkids i hi

theorem wfGo_some_elim {m fuel minC maxC : Nat} {lo hi : Option Int} {n : MNode} {h : Nat}
    (hwf : wfGo m (fuel + 1) minC maxC lo hi n = some h) :
    (minC ≤ n.contents.length ∧ n.contents.length ≤ maxC) ∧
    (List.Pairwise (· < ·) (n.contents.map MContent.key) ∧
      ∀ k ∈ n.contents.map MContent.key, inBounds lo hi k = true) ∧
    ((n.children.length = 0 ∧ h = 1) ∨
      (n.children.length = n.contents.length + 1 ∧ 1 ≤ h ∧
        ∀ i, i < n.children.length →
          wfGo m fuel (minContents m) (maxContents m)
            (lowAt lo (n.contents.map MContent.key) i)
            (highAt hi (n.contents.map MContent.key) i)
            (n.children.getD i default) = some (h - 1))) := by
  unfold wfGo at hwf
  dsimp only at hwf
  by_cases hcond : minC ≤ n.contents.length ∧ n.contents.length ≤ maxC ∧
      List.Pairwise (· < ·) (n.contents.map MContent.key) ∧
      ∀ k ∈ n.contents.map MContent.key, inBounds lo hi k = true
  case neg => rw [if_neg hcond] at hwf; cases hwf
  rw [if_pos hcond] at hwf
  refine ⟨⟨hcond.1, hcond.2.1⟩, ⟨hcond.2.2.1, hcond.2.2.2⟩, ?_⟩
  by_cases hleaf : n.children.length = 0
  · rw [if_pos hleaf] at hwf
    injection hwf with hwf
    exact Or.inl ⟨hleaf, hwf.symm⟩
  · rw [if_neg hleaf] at hwf
    by_cases hlen : n.children.length = n.contents.length + 1
    · rw [if_pos hlen] at hwf
      rcases hh0 : wfGo m fuel (minContents m) (maxContents m)
          (lowAt lo (n.contents.map MContent.key) 0)
          (highAt hi (n.contents.map MContent.key) 0) (n.children.getD 0 default) with _ | h0
      · rw [hh0] at hwf; cases hwf
      · rw [hh0] at hwf
        dsimp only at hwf
        by_cases hall : ((List.range n.children.length).all fun i =>
            wfGo m fuel (minContents m) (maxContents m)
              (lowAt lo (n.contents.map MContent.key) i)
              (highAt hi (n.contents.map MContent.key) i)
              (n.children.getD i default) = some h0) = true
        · rw [if_pos hall] at hwf
          injection hwf with hwf
          simp only [List.all_eq_true, List.mem_range, decide_eq_true_eq] at hall
          refine Or.inr ⟨hlen, by omega, fun i hi => ?_⟩
          rw [hall i hi, ← hwf]
          simp
        · rw [if_neg hall] at hwf; cases hwf
    · rw [if_neg hlen] at hwf; cases hwf

theorem wfGo_pos {m fuel minC maxC lo hi n h}
    (hwf : wfGo m fuel minC maxC lo hi n = some h) : 1 ≤ h ∧ 1 ≤ fuel := by
  cases fuel with
  | zero => cases hwf
  | succ fuel =>
    obtain ⟨-, -, hrest⟩ := wfGo_some_elim hwf
    rcases hrest with ⟨-, rfl⟩ | ⟨-, hh, -⟩ <;> omega

/-- A well-formedness certificate transfers to any fuel at least the
height. -/
theorem wfGo_fuel {m : Nat} : ∀ {fuel minC maxC : Nat} {lo hi : Option Int} {n : MNode}
    {h : Nat}, wfGo m fuel minC maxC lo hi n = some h →
    h ≤ fuel ∧ ∀ fuel', h ≤ fuel' → wfGo m fuel' minC maxC lo hi n = some h := by
  intro fuel
  induction fuel with
  | zero => intro _ _ _ _ _ _ hwf; cases hwf
  | succ fuel ih =>
    intro minC maxC lo hi n h hwf
    obtain ⟨hcnt, hpair, hrest⟩ := wfGo_some_elim hwf
    rcases hrest with ⟨hleaf, rfl⟩ | ⟨hlen, hh, hkids⟩
    · refine ⟨by omega, fun fuel' hf' => ?_⟩
      obtain ⟨f'', rfl⟩ : ∃ f'', fuel' = f'' + 1 := ⟨fuel' - 1, by omega⟩
      exact wfGo_leaf_intro hcnt hpair.1 hpair.2 hleaf
    · have ih0 := ih (hkids 0 (by omega))
      refine ⟨by omega, fun fuel' hf' => ?_⟩
      obtain ⟨f'', rfl⟩ : ∃ f'', fuel' = f'' + 1 := ⟨fuel' - 1, by omega⟩
      have hrw : h = (h - 1) + 1 := by omega
      rw [hrw]
      exact wfGo_internal_intro hcnt hpair.1 hpair.2 hlen
        (fun i hi => (ih (hkids i hi)).2 f'' (by omega))

theorem mem_list_sum {α : Type} {k : α} : ∀ {l : List (Multiset α)},
    k ∈ l.sum ↔ ∃ s ∈ l, k ∈ s := by
  intro l
  induction l with
  | nil => simp
  | cons s l ih => simp [List.sum_cons, Multiset.mem_add, ih]

theorem card_le_list_sum {α : Type} {s : Multiset α} : ∀ {l : List (Multiset α)}, s ∈ l →
    Multiset.card s ≤ Multiset.card l.sum := by
  intro l
  induction l with
  | nil => intro h; simp at h
  | cons a l ihl =>
    intro hmem
    rcases List.mem_cons.mp hmem with rfl | hmem'
    · simp only [List.sum_cons, Multiset.card_add]; omega
    · have := ihl hmem'
      simp only [List.sum_cons, Multiset.card_add]
      omega

/-- For fuels at least the height, `keysM` does not depend on the fuel. -/
theorem keysM_fuel {m : Nat} : ∀ {fuel minC maxC : Nat} {lo hi : Option Int} {n : MNode}
    {h : Nat}, wfGo m fuel minC maxC lo hi n = some h →
    ∀ f1 f2, h ≤ f1 → h ≤ f2 → keysM f1 n = keysM f2 n := by
  intro fuel
  induction fuel with
  | zero => intro _ _ _ _ _ _ hwf; cases hwf
  | succ fuel ih =>
    intro minC maxC lo hi n h hwf f1 f2 h1 h2
    obtain ⟨hcnt, hpair, hrest⟩ := wfGo_some_elim hwf
    have hpos := (wfGo_pos hwf).1
    obtain ⟨g1, rfl⟩ : ∃ g, f1 = g + 1 := ⟨f1 - 1, by omega⟩
    obtain ⟨g2, rfl⟩ : ∃ g, f2 = g + 1 := ⟨f2 - 1, by omega⟩
    rcases hrest with ⟨hleaf, rfl⟩ | ⟨hlen, hh, hkids⟩
    · unfold keysM
      rw [List.length_eq_zero.mp hleaf]
      simp
    · unfold keysM
      congr 1
      have hmapeq : n.children.map (keysM g1) = n.children.map (keysM g2) := by
        apply List.map_congr_left
        intro c hc
        obtain ⟨i, hi, rfl⟩ := List.mem_iff_getElem.mp hc
        have hkid := hkids i hi
        rw [List.getD_eq_getElem n.children default hi] at hkid
        exact ih hkid g1 g2 (by omega) (by omega)
      rw [hmapeq]

/-- Every key of a well-formed subtree lies strictly inside its window. -/
theorem wfGo_keys_inBounds {m : Nat} : ∀ {fuel minC maxC : Nat} {lo hi : Option Int}
    {n : MNode} {h : Nat}, wfGo m fuel minC maxC lo hi n = some h →
    ∀ k ∈ keysM fuel n, inBounds lo hi k = true := by
  intro fuel
  induction fuel with
  | zero => intro _ _ _ _ _ _ hwf; cases hwf
  | succ fuel ih =>
    intro minC maxC lo hi n h hwf k hk
    obtain ⟨hcnt, hpair, hrest⟩ := wfGo_some_elim hwf
    unfold keysM at hk
    rw [Multiset.mem_add] at hk
    have htop : ∀ k', k' ∈ n.contents.map MContent.key → inBounds lo hi k' = true := hpair.2
    rcases hk with hk | hk
    · exact htop k (by simpa using hk)
    · rcases hrest with ⟨hleaf, rfl⟩ | ⟨hlen, hh, hkids⟩
      · rw [List.length_eq_zero.mp hleaf] at hk
        simp at hk
      · rw [mem_list_sum] at hk
        obtain ⟨s, hs, hks⟩ := hk
        rw [List.mem_map] at hs
        obtain ⟨c, hc, rfl⟩ := hs
        obtain ⟨i, hilt, rfl⟩ := List.mem_iff_getElem.mp hc
        have hkid := hkids i hilt
        rw [List.getD_eq_getElem n.children default hilt] at hkid
        have hkin := ih hkid k hks
        -- weaken the child window (lowAt, highAt) to (lo, hi)
        unfold inBounds at hkin ⊢
        unfold lowAt highAt at hkin
        have hks' : (n.contents.map MContent.key).length = n.contents.length :=
          List.length_map ..
        rw [Bool.and_eq_true] at hkin
        obtain ⟨hklo, hkhi⟩ := hkin
        rw [Bool.and_eq_true]
        constructor
        · by_cases hi0 : i = 0
          · rw [if_pos hi0] at hklo; exact hklo
          · rw [if_neg hi0] at hklo
            cases lo with
            | none => rfl
            | some lv =>
              simp only [decide_eq_true_eq] at hklo ⊢
              have hidx : i - 1 < n.contents.length := by omega
              have : lv < (n.contents.map MContent.key).getD (i - 1) 0 := by
                have hmem2 : (n.contents.map MContent.key).getD (i - 1) 0
                    ∈ n.contents.map MContent.key := by
                  rw [List.getD_eq_getElem _ _ (by omega)]
                  exact List.getElem_mem _
                have := htop _ hmem2
                unfold inBounds at this
                rw [Bool.and_eq_true] at this
                simpa using this.1
              omega
        · by_cases hiN : i = n.contents.length
          · rw [hks', if_pos hiN] at hkhi; exact hkhi
          · rw [hks', if_neg hiN] at hkhi
            cases hi with
            | none => rfl
            | some hv =>
              simp only [decide_eq_true_eq] at hkhi ⊢
              have hidx : i < n.contents.length := by omega
              have : (n.contents.map MContent.key).getD i 0 < hv := by
                have hmem2 : (n.contents.map MContent.key).getD i 0
                    ∈ n.contents.map MContent.key := by
                  rw [List.getD_eq_getElem _ _ (by omega)]
                  exact List.getElem_mem _
                have := htop _ hmem2
                unfold inBounds at this
                rw [Bool.and_eq_true] at this
                simpa using this.2
              omega

/-- A well-formed subtree of height `h` holds at least `h` keys (each level
contributes at least one). -/
theorem wfGo_card_ge {m : Nat} (hm : 3 ≤ m) : ∀ {fuel minC maxC : Nat} {lo hi : Option Int}
    {n : MNode} {h : Nat}, 1 ≤ minC → wfGo m fuel minC maxC lo hi n = some h →
    h ≤ Multiset.card (keysM fuel n) := by
  intro fuel
  induction fuel with
  | zero => intro _ _ _ _ _ _ _ hwf; cases hwf
  | succ fuel ih =>
    intro minC maxC lo hi n h hminC hwf
    obtain ⟨hcnt, hpair, hrest⟩ := wfGo_some_elim hwf
    unfold keysM
    simp only [Multiset.card_add, Multiset.coe_card, List.length_map]
    rcases hrest with ⟨hleaf, rfl⟩ | ⟨hlen, hh, hkids⟩
    · omega
    · have hkid := hkids 0 (by omega)
      have hminI : 1 ≤ minContents m := by
        unfold minContents minChildren; omega
      have hc0 := ih hminI hkid
      have hmem : keysM fuel (n.children.getD 0 default) ∈ n.children.map (keysM fuel) := by
        rw [List.getD_eq_getElem n.children default (by omega)]
        exact List.mem_map_of_mem _ (List.getElem_mem _)
      have hle := card_le_list_sum hmem
      omega

/-! ### Binary search characterization on sorted contents -/

theorem comparator_pos {a b : MContent} (h : 0 < comparator a b) : b.key < a.key := by
  unfold comparator at h
  split at h
  · omega
  · split at h <;> omega

theorem comparator_neg {a b : MContent} (h : comparator a b < 0) : a.key < b.key := by
  unfold comparator at h
  split at h
  · omega
  · split at h <;> omega

theorem keys_getD_lt {cs : List MContent} (hp : List.Pairwise (· < ·) (cs.map MContent.key))
    {i j : Nat} (hi : i < cs.length) (hj : j < cs.length) (hij : i < j) :
    (cs.map MContent.key).getD i 0 < (cs.map MContent.key).getD j 0 := by
  rw [List.getD_eq_getElem _ _ (by simpa using hi), List.getD_eq_getElem _ _ (by simpa using hj)]
  exact List.pairwise_iff_getElem.mp hp i j (by simpa using hi) (by simpa using hj) hij

/-- Full characterization of the `search` loop on a sorted node: when
found, the reported index holds the key; when not found, the reported
index is the rank of the key (all smaller keys strictly before it, all
larger strictly after). -/
theorem searchLoop_spec (cs : List MContent) (it : MContent)
    (hp : List.Pairwise (· < ·) (cs.map MContent.key)) :
    ∀ (fuel : Nat) (low high : Int), 0 ≤ low → high < cs.length → low ≤ high + 1 →
    high + 1 - low < fuel →
    (∀ j : Nat, j < cs.length → (j : Int) < low → (cs.map MContent.key).getD j 0 < it.key) →
    (∀ j : Nat, j < cs.length → high < (j : Int) → it.key < (cs.map MContent.key).getD j 0) →
    ((searchLoop cs it fuel low high).2 = true →
        (searchLoop cs it fuel low high).1 < cs.length ∧
          (cs.map MContent.key).getD (searchLoop cs it fuel low high).1 0 = it.key) ∧
    ((searchLoop cs it fuel low high).2 = false →
        (searchLoop cs it fuel low high).1 ≤ cs.length ∧
        (∀ j : Nat, j < cs.length → j < (searchLoop cs it fuel low high).1 →
            (cs.map MContent.key).getD j 0 < it.key) ∧
        (∀ j : Nat, j < cs.length → (searchLoop cs it fuel low high).1 ≤ j →
            it.key < (cs.map MContent.key).getD j 0)) := by
  intro fuel
  induction fuel with
  | zero => intro low high h0 hh hlh hfuel _ _; omega
  | succ fuel ih =>
    intro low high h0 hh hlh hfuel hbelow habove
    unfold searchLoop
    by_cases hle : low ≤ high
    case neg =>
      rw [if_neg hle]
      constructor
      · intro h
        simp at h
      · intro _
        refine ⟨by simp; omega, ?_, ?_⟩
        · intro j hj hjlt
          simp only at hjlt
          exact hbelow j hj (by omega)
        · intro j hj hjge
          simp only at hjge
          exact habove j hj (by omega)
    rw [if_pos hle]
    dsimp only
    set mid := (high + low) / 2 with hmid
    have hmid1 : low ≤ mid := by omega
    have hmid2 : mid ≤ high := by omega
    have hmidlt : mid.toNat < cs.length := by omega
    have hkey : (cs.getD mid.toNat default).key = (cs.map MContent.key).getD mid.toNat 0 := by
      rw [List.getD_eq_getElem cs default hmidlt,
        List.getD_eq_getElem _ _ (by simpa using hmidlt)]
      simp
    by_cases hgt : comparator it (cs.getD mid.toNat default) > 0
    · rw [if_pos hgt]
      have hmidkey : (cs.map MContent.key).getD mid.toNat 0 < it.key := by
        rw [← hkey]; exact comparator_pos hgt
      apply ih (mid + 1) high (by omega) hh (by omega) (by omega)
      · intro j hj hjlt
        by_cases hje : (j : Int) < low
        · exact hbelow j hj hje
        · -- low ≤ j ≤ mid: use sortedness against position mid
          by_cases hjm : j = mid.toNat
          · rw [hjm]; exact hmidkey
          · have hjlt' : j < mid.toNat := by omega
            exact lt_trans (keys_getD_lt hp hj hmidlt hjlt') hmidkey
      · exact habove
    · rw [if_neg hgt]
      by_cases hlt : comparator it (cs.getD mid.toNat default) < 0
      · rw [if_pos hlt]
        have hmidkey : it.key < (cs.map MContent.key).getD mid.toNat 0 := by
          rw [← hkey]; exact comparator_neg hlt
        apply ih low (mid - 1) h0 (by omega) (by omega) (by omega)
        · exact hbelow
        · intro j hj hjgt
          by_cases hje : high < (j : Int)
          · exact habove j hj hje
          · by_cases hjm : j = mid.toNat
            · rw [hjm]; exact hmidkey
            · have hjgt' : mid.toNat < j := by omega
              exact lt_trans hmidkey (keys_getD_lt hp hmidlt hj hjgt')
      · rw [if_neg hlt]
        have hcmp : comparator it (cs.getD mid.toNat default) = 0 := by omega
        refine ⟨fun _ => ⟨hmidlt, ?_⟩, fun h => by cases h⟩
        rw [← hkey]
        exact (comparator_eq_zero hcmp).symm

/-- `tree.search` on a sorted node: found means the index holds the key;
not found means the index is the key's rank. -/
theorem searchNode_spec (cs : List MContent) (it : MContent)
    (hp : List.Pairwise (· < ·) (cs.map MContent.key)) :
    ((searchNode cs it).2 = true →
        (searchNode cs it).1 < cs.length ∧
          (cs.map MContent.key).getD (searchNode cs it).1 0 = it.key) ∧
    ((searchNode cs it).2 = false →
        (searchNode cs it).1 ≤ cs.length ∧
        (∀ j : Nat, j < cs.length → j < (searchNode cs it).1 →
            (cs.map MContent.key).getD j 0 < it.key) ∧
        (∀ j : Nat, j < cs.length → (searchNode cs it).1 ≤ j →
            it.key < (cs.map MContent.key).getD j 0)) := by
  unfold searchNode
  exact searchLoop_spec cs it hp (cs.length + 1) 0 ((cs.length : Int) - 1)
    (by omega) (by omega) (by omega) (by omega)
    (fun j hj hjlt => by omega) (fun j hj hjgt => by omega)

/-! ### Algebraic helpers for the splice operations -/

theorem drop_eq_getElem_cons {α : Type} {l : List α} {i : Nat} (hi : i < l.length) :
    l.drop i = l[i] :: l.drop (i + 1) := (List.getElem_cons_drop l i hi).symm

theorem sum_set_add (l : List (Multiset Int)) (i : Nat) (hi : i < l.length) (s : Multiset Int) :
    (l.set i s).sum + l[i] = l.sum + s := by
  rw [List.set_eq_take_cons_drop _ hi, List.sum_append, List.sum_cons]
  conv_rhs => rw [← List.take_append_drop i l, List.sum_append, drop_eq_getElem_cons hi,
    List.sum_cons]
  abel

theorem sum_insertIdx (l : List (Multiset Int)) (i : Nat) (hi : i ≤ l.length)
    (s : Multiset Int) : (l.insertIdx i s).sum = l.sum + s := by
  rw [(List.perm_insertIdx s l hi).sum_eq, List.sum_cons]
  abel

theorem sum_eraseIdx_add (l : List (Multiset Int)) (i : Nat) (hi : i < l.length) :
    (l.eraseIdx i).sum + l[i] = l.sum := by
  rw [List.eraseIdx_eq_take_drop_succ, List.sum_append]
  conv_rhs => rw [← List.take_append_drop i l, List.sum_append, drop_eq_getElem_cons hi,
    List.sum_cons]
  abel

theorem sum_take_getElem_drop (l : List (Multiset Int)) (i : Nat) (hi : i < l.length) :
    (l.take i).sum + l[i] + (l.drop (i + 1)).sum = l.sum := by
  conv_rhs => rw [← List.take_append_drop i l, List.sum_append, drop_eq_getElem_cons hi,
    List.sum_cons]
  abel

theorem coe_set_add : ∀ (l : List Int) (i : Nat) (hi : i < l.length) (a : Int),
    (↑(l.set i a) : Multiset Int) + {l[i]} = ↑l + {a}
  | [], i, hi, a => by simp at hi
  | x :: xs, 0, _, a => by
    simp only [List.set_cons_zero, List.getElem_cons_zero, ← Multiset.cons_coe,
      ← Multiset.singleton_add]
    abel
  | x :: xs, i + 1, hi, a => by
    simp only [List.set_cons_succ, List.getElem_cons_succ, ← Multiset.cons_coe,
      ← Multiset.singleton_add]
    have h := coe_set_add xs i (by simpa using hi) a
    calc ({x} : Multiset Int) + ↑(xs.set i a) + {xs.get ⟨i, by simpa using hi⟩}
        = ({x} : Multiset Int) + (↑(xs.set i a) + {xs.get ⟨i, by simpa using hi⟩}) := by abel
      _ = ({x} : Multiset Int) + (↑xs + {a}) := by
            simp only [List.get_eq_getElem]
            rw [h]
      _ = ({x} : Multiset Int) + ↑xs + {a} := by abel

theorem coe_insertIdx (l : List Int) (i : Nat) (hi : i ≤ l.length) (a : Int) :
    (↑(l.insertIdx i a) : Multiset Int) = a ::ₘ ↑l := by
  rw [Multiset.coe_eq_coe.mpr (List.perm_insertIdx a l hi)]
  simp

theorem coe_eraseIdx_add : ∀ (l : List Int) (i : Nat) (hi : i < l.length),
    (↑(l.eraseIdx i) : Multiset Int) + {l[i]} = ↑l
  | [], i, hi => by simp at hi
  | x :: xs, 0, _ => by
    simp only [List.eraseIdx_cons_zero, List.getElem_cons_zero, ← Multiset.cons_coe,
      ← Multiset.singleton_add]
    abel
  | x :: xs, i + 1, hi => by
    simp only [List.eraseIdx_cons_succ, List.getElem_cons_succ, ← Multiset.cons_coe,
      ← Multiset.singleton_add]
    have h := coe_eraseIdx_add xs i (by simpa using hi)
    calc ({x} : Multiset Int) + ↑(xs.eraseIdx i) + {xs.get ⟨i, by simpa using hi⟩}
        = ({x} : Multiset Int) + (↑(xs.eraseIdx i) + {xs.get ⟨i, by simpa using hi⟩}) := by abel
      _ = ({x} : Multiset Int) + ↑xs := by
            simp only [List.get_eq_getElem]
            rw [h]

theorem coe_take_getElem_drop (l : List Int) (i : Nat) (hi : i < l.length) :
    (↑(l.take i) : Multiset Int) + {l[i]} + ↑(l.drop (i + 1)) = ↑l := by
  have h := coe_eraseIdx_add l i hi
  rw [List.eraseIdx_eq_take_drop_succ, ← Multiset.coe_add] at h
  calc (↑(l.take i) : Multiset Int) + {l[i]} + ↑(l.drop (i + 1))
      = (↑(l.take i) : Multiset Int) + ↑(l.drop (i + 1)) + {l[i]} := by abel
    _ = ↑l := h

/-! ### Index lemmas for `insertIdx` and `set` -/

theorem insertIdx_eq_take_cons_drop {α : Type} :
    ∀ (l : List α) (i : Nat), i ≤ l.length → ∀ a : α,
      l.insertIdx i a = l.take i ++ a :: l.drop i
  | l, 0, _, a => by simp
  | [], i + 1, hi, a => by simp at hi
  | x :: xs, i + 1, hi, a => by
    simp only [List.insertIdx_succ_cons, List.take_succ_cons, List.drop_succ_cons,
      List.cons_append, List.cons.injEq, true_and]
    exact insertIdx_eq_take_cons_drop xs i (by simpa using hi) a

theorem map_insertIdx {α β : Type} (f : α → β) :
    ∀ (l : List α) (i : Nat), i ≤ l.length → ∀ a : α,
      (l.insertIdx i a).map f = (l.map f).insertIdx i (f a)
  | l, 0, _, a => by simp
  | [], i + 1, hi, a => by simp at hi
  | x :: xs, i + 1, hi, a => by
    simp only [List.insertIdx_succ_cons, List.map_cons, List.cons.injEq, true_and]
    exact map_insertIdx f xs i (by simpa using hi) a

theorem set_getElem_self {α : Type} (l : List α) (i : Nat) (hi : i < l.length) :
    l.set i (l[i]) = l := by
  apply List.ext_getElem
  · simp
  · intro j hj hj'
    rw [List.getElem_set]
    split
    · rename_i hij
      subst hij
      rfl
    · rfl

theorem getD_insertIdx_ge {α : Type} (d : α) :
    ∀ (l : List α) (i : Nat), i ≤ l.length → ∀ (a : α) (j : Nat), i < j → j < l.length + 1 →
      (l.insertIdx i a).getD j d = l.getD (j - 1) d
  | l, 0, _, a, j, hij, hj => by
    simp only [List.insertIdx_zero]
    rw [List.getD_eq_getElem _ _ (by simpa using hj), List.getD_eq_getElem _ _ (by omega)]
    obtain ⟨j', rfl⟩ : ∃ j', j = j' + 1 := ⟨j - 1, by omega⟩
    simp
  | [], i + 1, hi, a, j, hij, hj => by simp at hi
  | x :: xs, i + 1, hi, a, j, hij, hj => by
    obtain ⟨j', rfl⟩ : ∃ j', j = j' + 1 := ⟨j - 1, by omega⟩
    simp only [List.insertIdx_succ_cons]
    rcases Nat.eq_zero_or_pos j' with rfl | hj'pos
    · omega
    · have := getD_insertIdx_ge d xs i (by simpa using hi) a j' (by omega) (by simpa using hj)
      simp only [List.getD_cons_succ]
      rw [this]
      obtain ⟨j'', rfl⟩ : ∃ j'', j' = j'' + 1 := ⟨j' - 1, by omega⟩
      simp

theorem getD_set {α : Type} (d : α) {l : List α} {p i : Nat} (hi : i < l.length) (x : α) :
    (l.set p x).getD i d = if p = i then x else l.getD i d := by
  rw [List.getD_eq_getElem _ _ (by simpa using hi), List.getElem_set]
  split
  · rfl
  · rw [List.getD_eq_getElem _ _ hi]

theorem mem_insertIdx {α : Type} {l : List α} {i : Nat} (hi : i ≤ l.length) {a x : α}
    (hx : x ∈ l.insertIdx i a) : x = a ∨ x ∈ l := by
  have := (List.perm_insertIdx a l hi).mem_iff.mp hx
  simpa using this

theorem intList_getD_lt {ks : List Int} (hp : List.Pairwise (· < ·) ks)
    {i j : Nat} (hij : i < j) (hj : j < ks.length) :
    ks.getD i 0 < ks.getD j 0 := by
  rw [List.getD_eq_getElem _ _ (by omega), List.getD_eq_getElem _ _ hj]
  exact List.pairwise_iff_getElem.mp hp i j (by omega) hj hij

theorem inBounds_lo {lo hi : Option Int} {k lv : Int} (h : inBounds lo hi k = true)
    (hlo : lo = some lv) : lv < k := by
  subst hlo
  unfold inBounds at h
  rw [Bool.and_eq_true] at h
  simpa using h.1

theorem inBounds_hi {lo hi : Option Int} {k hv : Int} (h : inBounds lo hi k = true)
    (hhi : hi = some hv) : k < hv := by
  subst hhi
  unfold inBounds at h
  rw [Bool.and_eq_true] at h
  simpa using h.2

theorem inBounds_intro {lo hi : Option Int} {k : Int}
    (hlo : ∀ lv, lo = some lv → lv < k) (hhi : ∀ hv, hi = some hv → k < hv) :
    inBounds lo hi k = true := by
  unfold inBounds
  rw [Bool.and_eq_true]
  constructor
  · cases lo with
    | none => rfl
    | some lv => simpa using hlo lv rfl
  · cases hi with
    | none => rfl
    | some hv => simpa using hhi hv rfl

/-- A key inside child `i`'s window is inside the node's own window. -/
theorem inBounds_of_window {lo hi : Option Int} {ks : List Int} {i : Nat} {k : Int}
    (hbnd : ∀ k' ∈ ks, inBounds lo hi k' = true)
    (hlen : i ≤ ks.length)
    (hk : inBounds (lowAt lo ks i) (highAt hi ks i) k = true) :
    inBounds lo hi k = true := by
  apply inBounds_intro
  · intro lv hlo
    by_cases hi0 : i = 0
    · exact inBounds_lo hk (by rw [hi0]; unfold lowAt; rw [if_pos rfl, hlo])
    · have h1 : ks.getD (i - 1) 0 < k := inBounds_lo hk (by unfold lowAt; rw [if_neg hi0])
      have hmem : ks.getD (i - 1) 0 ∈ ks := by
        rw [List.getD_eq_getElem _ _ (by omega)]
        exact List.getElem_mem _
      have := inBounds_lo (hbnd _ hmem) hlo
      omega
  · intro hv hhi
    by_cases hiN : i = ks.length
    · exact inBounds_hi hk (by unfold highAt; rw [if_pos hiN, hhi])
    · have h1 : k < ks.getD i 0 := inBounds_hi hk (by unfold highAt; rw [if_neg hiN])
      have hmem : ks.getD i 0 ∈ ks := by
        rw [List.getD_eq_getElem _ _ (by omega)]
        exact List.getElem_mem _
      have := inBounds_hi (hbnd _ hmem) hhi
      omega

/-- `search` on a sorted node whose keys all differ from the item's key,
split by rank `pos`, reports exactly `(pos, false)`. -/
theorem pairwise_insertIdx_rank {ks : List Int} {k : Int} {pos : Nat}
    (hp : List.Pairwise (· < ·) ks) (hpos : pos ≤ ks.length)
    (hlow : ∀ j, j < ks.length → j < pos → ks.getD j 0 < k)
    (hhigh : ∀ j, j < ks.length → pos ≤ j → k < ks.getD j 0) :
    List.Pairwise (· < ·) (ks.insertIdx pos k) := by
  have hlen : (ks.insertIdx pos k).length = ks.length + 1 :=
    List.length_insertIdx _ _ hpos
  have hget : ∀ j, j < ks.length + 1 →
      (ks.insertIdx pos k).getD j 0 =
        if j < pos then ks.getD j 0 else if j = pos then k else ks.getD (j - 1) 0 := by
    intro j hj
    by_cases h1 : j < pos
    · rw [if_pos h1, List.getD_eq_getElem _ _ (by omega),
        List.getElem_insertIdx_of_lt _ _ _ _ h1 (by omega), ← List.getD_eq_getElem _ 0 (by omega)]
    · rw [if_neg h1]
      by_cases h2 : j = pos
      · rw [if_pos h2, h2, List.getD_eq_getElem _ _ (by omega),
          List.getElem_insertIdx_self _ _ _ (by omega)]
      · rw [if_neg h2]
        exact getD_insertIdx_ge 0 ks pos hpos k j (by omega) hj
  rw [List.pairwise_iff_getElem]
  intro i j hi hj hij
  rw [hlen] at hi hj
  have gi := hget i (by omega)
  have gj := hget j (by omega)
  rw [← List.getD_eq_getElem _ 0 (by omega), ← List.getD_eq_getElem _ 0 (by omega), gi, gj]
  by_cases hip : i < pos
  · rw [if_pos hip]
    by_cases hjp : j < pos
    · rw [if_pos hjp]
      exact intList_getD_lt hp hij (by omega)
    · rw [if_neg hjp]
      by_cases hjq : j = pos
      · rw [if_pos hjq]
        exact hlow i (by omega) hip
      · rw [if_neg hjq]
        exact intList_getD_lt hp (by omega) (by omega)
  · rw [if_neg hip]
    by_cases hiq : i = pos
    · rw [if_pos hiq]
      have hjp : ¬ j < pos := by omega
      have hjq : ¬ j = pos := by omega
      rw [if_neg hjp, if_neg hjq]
      exact hhigh (j - 1) (by omega) (by omega)
    · rw [if_neg hiq]
      have hjp : ¬ j < pos := by omega
      have hjq : ¬ j = pos := by omega
      rw [if_neg hjp, if_neg hjq]
      exact intList_getD_lt hp (by omega) (by omega)

theorem searchNode_rank {cs : List MContent} {it : MContent} {pos : Nat}
    (hp : List.Pairwise (· < ·) (cs.map MContent.key)) (hpos : pos ≤ cs.length)
    (hlow : ∀ j, j < cs.length → j < pos → (cs.map MContent.key).getD j 0 < it.key)
    (hhigh : ∀ j, j < cs.length → pos ≤ j → it.key < (cs.map MContent.key).getD j 0) :
    searchNode cs it = (pos, false) := by
  have hspec := searchNode_spec cs it hp
  rcases hf : (searchNode cs it).2 with _ | _
  · have hr := hspec.2 hf
    have hposeq : (searchNode cs it).1 = pos := by
      by_contra hne
      rcases Nat.lt_or_ge (searchNode cs it).1 pos with hlt | hge
      · have h1 := hlow (searchNode cs it).1 (by omega) hlt
        have h2 := hr.2.2 (searchNode cs it).1 (by omega) (by omega)
        omega
      · have hlt2 : pos < (searchNode cs it).1 := by omega
        have h1 := hhigh pos (by omega) (by omega)
        have h2 := hr.2.1 pos (by omega) hlt2
        omega
    · ext
      · exact hposeq
      · rw [hf]
  · exfalso
    have hfk := hspec.1 hf
    rcases Nat.lt_or_ge (searchNode cs it).1 pos with hlt | hge
    · have := hlow (searchNode cs it).1 hfk.1 hlt
      omega
    · have := hhigh (searchNode cs it).1 hfk.1 hge
      omega

theorem getD_take {α : Type} (d : α) {l : List α} {i j : Nat} (h : j < i)
    (hj : j < l.length) : (l.take i).getD j d = l.getD j d := by
  rw [List.getD_eq_getElem _ _ (by simp; omega), List.getD_eq_getElem _ _ hj]
  simp [List.getElem_take]

theorem getD_drop {α : Type} (d : α) {l : List α} {i j : Nat} (hj : i + j < l.length) :
    (l.drop i).getD j d = l.getD (i + j) d := by
  rw [List.getD_eq_getElem _ _ (by simp; omega), List.getD_eq_getElem _ _ hj]
  simp [List.getElem_drop]

/-- On a sorted node, `search` finds the key iff it is among the node's
contents. -/
theorem searchNode_found_iff (cs : List MContent) (it : MContent)
    (hp : List.Pairwise (· < ·) (cs.map MContent.key)) :
    (searchNode cs it).2 = true ↔ it.key ∈ cs.map MContent.key := by
  constructor
  · exact fun h => searchNode_found_mem cs it h
  · intro hmem
    by_contra hnf
    have hspec := (searchNode_spec cs it hp).2 (by simpa using hnf)
    obtain ⟨j, hj, hjkey⟩ := List.mem_iff_getElem.mp hmem
    have hjlen : j < cs.length := by simpa using hj
    rcases Nat.lt_or_ge j (searchNode cs it).1 with hlt | hge
    · have := hspec.2.1 j hjlen hlt
      rw [List.getD_eq_getElem _ _ hj] at this
      omega
    · have := hspec.2.2 j hjlen hge
      rw [List.getD_eq_getElem _ _ hj] at this
      omega

/-! ### The two halves of a split are well-formed -/

/-- Capacity arithmetic for the split of an `m`-content node. -/
theorem middle_bounds {m : Nat} (hm : 3 ≤ m) :
    minContents m ≤ middle m ∧ middle m ≤ maxContents m ∧
    minContents m ≤ m - middle m - 1 ∧ m - middle m - 1 ≤ maxContents m ∧
    middle m < m := by
  unfold minContents minChildren middle maxContents maxChildren
  omega

/-- The left node built by `splitNonRoot`/`splitRoot` from an overflowed
(`m`-content) node is well-formed in the window (original low bound,
promoted separator). -/
theorem split_left_wf {m fuel : Nat} (hm : 3 ≤ m) {clo chi : Option Int} {cn : MNode}
    {hc : Nat} (hwf : wfGo m (fuel + 1) m m clo chi cn = some hc) :
    wfGo m (fuel + 1) (minContents m) (maxContents m) clo
      (some ((cn.contents.map MContent.key).getD (middle m) 0))
      (MNode.node none (cn.contents.take (middle m)) (cn.children.take (middle m + 1)))
      = some hc := by
  obtain ⟨hcnt, ⟨hpair, hbnd⟩, hrest⟩ := wfGo_some_elim hwf
  have hlenc : cn.contents.length = m := by omega
  obtain ⟨hm1, hm2, hm3, hm4, hm5⟩ := middle_bounds hm
  have hmidlt : middle m < cn.contents.length := by omega
  have hkslen : (cn.contents.map MContent.key).length = cn.contents.length := by simp
  set ksc := cn.contents.map MContent.key with hksc
  have hsepmem : ksc.getD (middle m) 0 ∈ ksc := by
    rw [List.getD_eq_getElem _ _ (by omega)]
    exact List.getElem_mem _
  have htakekeys : (cn.contents.take (middle m)).map MContent.key = ksc.take (middle m) := by
    rw [hksc, List.map_take]
  have htakelen : (cn.contents.take (middle m)).length = middle m := by
    simp
    omega
  have hpairT : List.Pairwise (· < ·) (ksc.take (middle m)) :=
    hpair.sublist (List.take_sublist _ _)
  have hbndT : ∀ k ∈ ksc.take (middle m),
      inBounds clo (some (ksc.getD (middle m) 0)) k = true := by
    intro k hk
    obtain ⟨j, hj, rfl⟩ := List.mem_iff_getElem.mp hk
    have hjlt : j < middle m := by
      have := List.length_take_le (middle m) ksc
      have hj' := hj
      simp at hj'
      omega
    rw [← List.getD_eq_getElem _ 0 hj, getD_take 0 hjlt (by omega)]
    have hmem : ksc.getD j 0 ∈ ksc := by
      rw [List.getD_eq_getElem _ _ (by omega)]
      exact List.getElem_mem _
    apply inBounds_intro
    · intro lv hlo
      exact inBounds_lo (hbnd _ hmem) hlo
    · intro hv hhv
      injection hhv with hhv
      rw [← hhv]
      exact intList_getD_lt hpair hjlt (by omega)
  rcases hrest with ⟨hleaf, rfl⟩ | ⟨hlen, hh, hkids⟩
  · apply wfGo_leaf_intro
    · simp only [MNode.contents_node]; rw [htakelen]; exact ⟨hm1, hm2⟩
    · simp only [MNode.contents_node]; rw [htakekeys]; exact hpairT
    · simp only [MNode.contents_node]; rw [htakekeys]; exact hbndT
    · simp only [MNode.children_node]
      rw [List.length_eq_zero.mp hleaf]
      simp
  · have hrw : hc = (hc - 1) + 1 := by omega
    rw [hrw]
    apply wfGo_internal_intro
    · simp only [MNode.contents_node]; rw [htakelen]; exact ⟨hm1, hm2⟩
    · simp only [MNode.contents_node]; rw [htakekeys]; exact hpairT
    · simp only [MNode.contents_node]; rw [htakekeys]; exact hbndT
    · simp only [MNode.children_node, MNode.contents_node]
      rw [htakelen, List.length_take]
      omega
    · intro i hilt
      simp only [MNode.children_node, MNode.contents_node] at hilt ⊢
      have hilt' : i < middle m + 1 := by
        have := List.length_take_le (middle m + 1) cn.children
        simp at hilt
        omega
    -- child i of the left node is child i of cn, with the same window
      have hchild : (cn.children.take (middle m + 1)).getD i default =
          cn.children.getD i default := getD_take default hilt' (by omega)
      have hlow : lowAt clo ((cn.contents.take (middle m)).map MContent.key) i =
          lowAt clo ksc i := by
        unfold lowAt
        by_cases hi0 : i = 0
        · rw [if_pos hi0, if_pos hi0]
        · rw [if_neg hi0, if_neg hi0, htakekeys, getD_take 0 (by omega) (by omega)]
      have hhigh : highAt (some (ksc.getD (middle m) 0))
          ((cn.contents.take (middle m)).map MContent.key) i = highAt chi ksc i := by
        unfold highAt
        rw [htakekeys]
        have hlt : (ksc.take (middle m)).length = middle m := by
          simp; omega
        by_cases him : i = middle m
        · rw [if_pos (by omega), if_neg (by omega), him]
        · rw [if_neg (by omega), if_neg (by omega), getD_take 0 (by omega) (by omega)]
      rw [hchild, hlow, hhigh]
      exact hkids i (by omega)

/-- The right node built by `splitNonRoot`/`splitRoot` from an overflowed
(`m`-content) node is well-formed in the window (promoted separator,
original high bound). -/
theorem split_right_wf {m fuel : Nat} (hm : 3 ≤ m) {clo chi : Option Int} {cn : MNode}
    {hc : Nat} (hwf : wfGo m (fuel + 1) m m clo chi cn = some hc) :
    wfGo m (fuel + 1) (minContents m) (maxContents m)
      (some ((cn.contents.map MContent.key).getD (middle m) 0)) chi
      (MNode.node none (cn.contents.drop (middle m + 1)) (cn.children.drop (middle m + 1)))
      = some hc := by
  obtain ⟨hcnt, ⟨hpair, hbnd⟩, hrest⟩ := wfGo_some_elim hwf
  have hlenc : cn.contents.length = m := by omega
  obtain ⟨hm1, hm2, hm3, hm4, hm5⟩ := middle_bounds hm
  have hmidlt : middle m < cn.contents.length := by omega
  have hkslen : (cn.contents.map MContent.key).length = cn.contents.length := by simp
  set ksc := cn.contents.map MContent.key with hksc
  have hsepmem : ksc.getD (middle m) 0 ∈ ksc := by
    rw [List.getD_eq_getElem _ _ (by omega)]
    exact List.getElem_mem _
  have hdropkeys : (cn.contents.drop (middle m + 1)).map MContent.key =
      ksc.drop (middle m + 1) := by
    rw [hksc, List.map_drop]
  have hdroplen : (cn.contents.drop (middle m + 1)).length = m - middle m - 1 := by
    simp
    omega
  have hpairD : List.Pairwise (· < ·) (ksc.drop (middle m + 1)) :=
    hpair.sublist (List.drop_sublist _ _)
  have hbndD : ∀ k ∈ ksc.drop (middle m + 1),
      inBounds (some (ksc.getD (middle m) 0)) chi k = true := by
    intro k hk
    obtain ⟨j, hj, rfl⟩ := List.mem_iff_getElem.mp hk
    have hjlt : middle m + 1 + j < ksc.length := by
      simp at hj
      omega
    rw [← List.getD_eq_getElem _ 0 hj, getD_drop 0 (by omega)]
    have hmem : ksc.getD (middle m + 1 + j) 0 ∈ ksc := by
      rw [List.getD_eq_getElem _ _ (by omega)]
      exact List.getElem_mem _
    apply inBounds_intro
    · intro lv hlo
      injection hlo with hlo
      rw [← hlo]
      exact intList_getD_lt hpair (by omega) (by omega)
    · intro hv hhv
      exact inBounds_hi (hbnd _ hmem) hhv
  rcases hrest with ⟨hleaf, rfl⟩ | ⟨hlen, hh, hkids⟩
  · apply wfGo_leaf_intro
    · simp only [MNode.contents_node]; rw [hdroplen]; exact ⟨hm3, hm4⟩
    · simp only [MNode.contents_node]; rw [hdropkeys]; exact hpairD
    · simp only [MNode.contents_node]; rw [hdropkeys]; exact hbndD
    · simp only [MNode.children_node]
      rw [List.length_eq_zero.mp hleaf]
      simp
  · have hrw : hc = (hc - 1) + 1 := by omega
    rw [hrw]
    apply wfGo_internal_intro
    · simp only [MNode.contents_node]; rw [hdroplen]; exact ⟨hm3, hm4⟩
    · simp only [MNode.contents_node]; rw [hdropkeys]; exact hpairD
    · simp only [MNode.contents_node]; rw [hdropkeys]; exact hbndD
    · simp only [MNode.children_node, MNode.contents_node]
      rw [hdroplen, List.length_drop]
      omega
    · intro i hilt
      simp only [MNode.children_node, MNode.contents_node] at hilt ⊢
      have hilt' : middle m + 1 + i < cn.children.length := by
        simp at hilt
        omega
      have hchild : (cn.children.drop (middle m + 1)).getD i default =
          cn.children.getD (middle m + 1 + i) default := getD_drop default (by omega)
      have hlow : lowAt (some (ksc.getD (middle m) 0))
          ((cn.contents.drop (middle m + 1)).map MContent.key) i =
          lowAt clo ksc (middle m + 1 + i) := by
        unfold lowAt
        by_cases hi0 : i = 0
        · subst hi0
          rw [if_pos rfl, if_neg (by omega)]
          simp
        · obtain ⟨i', rfl⟩ : ∃ i', i = i' + 1 := ⟨i - 1, by omega⟩
          rw [if_neg hi0, if_neg (by omega), hdropkeys, getD_drop 0 (by omega)]
          rfl
      have hhigh : highAt chi ((cn.contents.drop (middle m + 1)).map MContent.key) i =
          highAt chi ksc (middle m + 1 + i) := by
        unfold highAt
        rw [hdropkeys]
        have hdl : (ksc.drop (middle m + 1)).length = m - middle m - 1 := by
          simp; omega
        by_cases hiN : i = m - middle m - 1
        · rw [if_pos (by omega), if_pos (by omega)]
        · rw [if_neg (by omega), if_neg (by omega), getD_drop 0 (by omega)]
      rw [hchild, hlow, hhigh]
      exact hkids (middle m + 1 + i) (by omega)

theorem key_getD {cs : List MContent} {j : Nat} (hj : j < cs.length) :
    (cs.map MContent.key).getD j 0 = (cs.getD j default).key := by
  rw [List.getD_eq_getElem _ _ (by simpa using hj), List.getD_eq_getElem _ _ hj]
  simp

theorem sum_set_add_getD (l : List (Multiset Int)) (i : Nat) (hi : i < l.length)
    (s : Multiset Int) : (l.set i s).sum + l.getD i 0 = l.sum + s := by
  rw [List.getD_eq_getElem _ _ hi]
  exact sum_set_add l i hi s

/-- Splicing the separator and the two halves of an overflowed child back
into the parent (`splitNonRoot` without the recursive `split(parent)`
call): the parent gains one content, keeps its window, all children remain
well-formed at the same height, and the key multiset of the result plus
the old child's keys equals the parent's keys plus the overflowed child's
keys. -/
theorem splitChild_spec {m : Nat} (hm : 3 ≤ m) {fuel : Nat} {lo hi : Option Int}
    {n : MNode} {hc : Nat} {pos : Nat} {cOver : MNode}
    (hcnt : n.contents.length ≤ maxContents m)
    (hpair : List.Pairwise (· < ·) (n.contents.map MContent.key))
    (hbnd : ∀ k ∈ n.contents.map MContent.key, inBounds lo hi k = true)
    (hlen : n.children.length = n.contents.length + 1)
    (hpos : pos ≤ n.contents.length)
    (hkids : ∀ i, i < n.children.length → i ≠ pos →
      wfGo m fuel (minContents m) (maxContents m)
        (lowAt lo (n.contents.map MContent.key) i)
        (highAt hi (n.contents.map MContent.key) i)
        (n.children.getD i default) = some hc)
    (hov : wfGo m fuel m m
        (lowAt lo (n.contents.map MContent.key) pos)
        (highAt hi (n.contents.map MContent.key) pos) cOver = some hc)
    {minC' : Nat} (hminC' : minC' ≤ n.contents.length + 1) :
    wfGo m (fuel + 1) minC' (n.contents.length + 1) lo hi (splitChild m n pos cOver)
      = some (hc + 1) ∧
    keysM (fuel + 1) (splitChild m n pos cOver) + keysM fuel (n.children.getD pos default)
      = keysM (fuel + 1) n + keysM fuel cOver := by
  obtain ⟨hc1, hfuel1⟩ := wfGo_pos hov
  obtain ⟨f', rfl⟩ : ∃ f', fuel = f' + 1 := ⟨fuel - 1, by omega⟩
  obtain ⟨hocnt, ⟨hopair, hobnd⟩, horest⟩ := wfGo_some_elim hov
  obtain ⟨hm1, hm2, hm3, hm4, hm5⟩ := middle_bounds hm
  have holen : cOver.contents.length = m := by omega
  set ks := n.contents.map MContent.key with hks
  set ksc := cOver.contents.map MContent.key with hksc
  have hkslen : ks.length = n.contents.length := by simp [hks]
  have hksclen : ksc.length = cOver.contents.length := by simp [hksc]
  set sep := cOver.contents.getD (middle m) default with hsep
  have hsepkey : ksc.getD (middle m) 0 = sep.key := key_getD (by omega)
  have hsepbnd : inBounds (lowAt lo ks pos) (highAt hi ks pos) sep.key = true := by
    rw [← hsepkey]
    apply hobnd
    rw [List.getD_eq_getElem _ _ (by omega)]
    exact List.getElem_mem _
  have hlowsep : ∀ j, j < ks.length → j < pos → ks.getD j 0 < sep.key := by
    intro j hj hjpos
    have h1 : ks.getD j 0 ≤ ks.getD (pos - 1) 0 := by
      rcases Nat.lt_or_ge j (pos - 1) with hlt | hge
      · exact le_of_lt (intList_getD_lt hpair hlt (by omega))
      · have hj' : j = pos - 1 := by omega
        subst hj'
        exact le_refl _
    have h2 : ks.getD (pos - 1) 0 < sep.key := by
      apply inBounds_lo hsepbnd
      unfold lowAt
      rw [if_neg (by omega)]
    omega
  have hhighsep : ∀ j, j < ks.length → pos ≤ j → sep.key < ks.getD j 0 := by
    intro j hj hjpos
    have h1 : ks.getD pos 0 ≤ ks.getD j 0 := by
      rcases Nat.eq_or_lt_of_le hjpos with heq | hlt
      · rw [heq]
      · exact le_of_lt (intList_getD_lt hpair hlt (by omega))
    have h2 : sep.key < ks.getD pos 0 := by
      apply inBounds_hi hsepbnd
      unfold highAt
      rw [if_neg (by omega)]
    omega
  have hsearch : searchNode n.contents sep = (pos, false) :=
    searchNode_rank hpair (by omega) (fun j hj => hlowsep j (by omega))
      (fun j hj => hhighsep j (by omega))
  have hsepin : inBounds lo hi sep.key = true :=
    inBounds_of_window hbnd (by omega) hsepbnd
  -- the two halves
  set lch := if cOver.children.length = 0 then ([] : List MNode)
    else cOver.children.take (middle m + 1) with hlch
  set rch := if cOver.children.length = 0 then ([] : List MNode)
    else cOver.children.drop (middle m + 1) with hrch
  set leftN := attemptHash (MNode.node none (cOver.contents.take (middle m)) lch) with hleftN
  set rightN := attemptHash (MNode.node none (cOver.contents.drop (middle m + 1)) rch)
    with hrightN
  have hlch' : lch = cOver.children.take (middle m + 1) := by
    rw [hlch]
    split
    · rename_i h0
      rw [List.length_eq_zero.mp h0]
      rfl
    · rfl
  have hrch' : rch = cOver.children.drop (middle m + 1) := by
    rw [hrch]
    split
    · rename_i h0
      rw [List.length_eq_zero.mp h0]
      rfl
    · rfl
  have hleftwf : wfGo m (f' + 1) (minContents m) (maxContents m)
      (lowAt lo ks pos) (some sep.key) leftN = some hc := by
    rw [hleftN, wfGo_attemptHash, hlch', ← hsepkey]
    exact split_left_wf hm hov
  have hrightwf : wfGo m (f' + 1) (minContents m) (maxContents m)
      (some sep.key) (highAt hi ks pos) rightN = some hc := by
    rw [hrightN, wfGo_attemptHash, hrch', ← hsepkey]
    exact split_right_wf hm hov
  have hsplit : splitChild m n pos cOver = MNode.node n.hash
      (n.contents.insertIdx pos sep)
      ((n.children.set pos leftN).insertIdx (pos + 1) rightN) := by
    unfold splitChild
    dsimp only
    rw [← hsep, hsearch]
    dsimp only
    rw [List.set_set]
    have hfst : (if cOver.children.length = 0 then (([] : List MNode), ([] : List MNode))
        else (cOver.children.take (middle m + 1), cOver.children.drop (middle m + 1))).1
        = lch := by
      by_cases h0 : cOver.children.length = 0
      · rw [hlch, if_pos h0, if_pos h0]
      · rw [hlch, if_neg h0, if_neg h0]
    have hsnd : (if cOver.children.length = 0 then (([] : List MNode), ([] : List MNode))
        else (cOver.children.take (middle m + 1), cOver.children.drop (middle m + 1))).2
        = rch := by
      by_cases h0 : cOver.children.length = 0
      · rw [hrch, if_pos h0, if_pos h0]
      · rw [hrch, if_neg h0, if_neg h0]
    rw [hfst, hsnd, ← hleftN, ← hrightN]
  set ks' := ks.insertIdx pos sep.key with hks'
  have hks'eq : (n.contents.insertIdx pos sep).map MContent.key = ks' := by
    rw [hks', hks, map_insertIdx _ _ _ (by omega)]
  have hks'len : ks'.length = n.contents.length + 1 := by
    rw [hks', List.length_insertIdx _ _ (by omega)]
    omega
  have hsetlen : (n.children.set pos leftN).length = n.contents.length + 1 := by
    simp [hlen]
  have hinslen : (ks.insertIdx pos sep.key).length = ks.length + 1 :=
    List.length_insertIdx _ _ (by omega)
  set chs := (n.children.set pos leftN).insertIdx (pos + 1) rightN with hchs
  have hchslen : ((n.children.set pos leftN).insertIdx (pos + 1) rightN).length
      = n.contents.length + 2 := by
    rw [List.length_insertIdx _ _ (by rw [hsetlen]; omega), hsetlen]
  have hchlen : chs.length = n.contents.length + 2 := by
    rw [hchs]
    exact hchslen
  have hks'getD_lt : ∀ j, j < pos → ks'.getD j 0 = ks.getD j 0 := by
    intro j hj
    rw [hks', List.getD_eq_getElem _ _ (by omega),
      List.getElem_insertIdx_of_lt _ _ _ _ hj (by omega), ← List.getD_eq_getElem _ 0 (by omega)]
  have hks'getD_self : ks'.getD pos 0 = sep.key := by
    rw [hks', List.getD_eq_getElem _ _ (by omega), List.getElem_insertIdx_self _ _ _ (by omega)]
  have hks'getD_gt : ∀ j, pos < j → j < ks.length + 1 → ks'.getD j 0 = ks.getD (j - 1) 0 := by
    intro j h1 h2
    rw [hks']
    exact getD_insertIdx_ge 0 ks pos (by omega) sep.key j h1 (by omega)
  have hchget : ∀ i, i < n.contents.length + 2 →
      chs.getD i default =
        if i < pos then n.children.getD i default
        else if i = pos then leftN
        else if i = pos + 1 then rightN
        else n.children.getD (i - 1) default := by
    intro i hi2
    by_cases h1 : i < pos + 1
    · have e1 : chs.getD i default = (n.children.set pos leftN).getD i default := by
        rw [hchs, List.getD_eq_getElem _ _ (by omega),
          List.getElem_insertIdx_of_lt _ _ _ _ h1 (by omega),
          ← List.getD_eq_getElem _ default (by omega)]
      rw [e1, getD_set default (by omega) leftN]
      by_cases h2 : i < pos
      · rw [if_pos h2, if_neg (by omega)]
      · rw [if_neg h2, if_pos (by omega), if_pos (by omega)]
    · by_cases h2 : i = pos + 1
      · subst h2
        rw [hchs, List.getD_eq_getElem _ _ (by omega),
          List.getElem_insertIdx_self _ _ _ (by omega)]
        rw [if_neg (by omega), if_neg (by omega), if_pos rfl]
      · have e1 : chs.getD i default = (n.children.set pos leftN).getD (i - 1) default := by
          rw [hchs]
          exact getD_insertIdx_ge default _ (pos + 1) (by omega) rightN i (by omega) (by omega)
        rw [e1, getD_set default (by omega) leftN, if_neg (by omega), if_neg (by omega),
          if_neg (by omega), if_neg h2]
  constructor
  · -- well-formedness of the rewritten parent
    rw [hsplit]
    apply wfGo_internal_intro
    · simp only [MNode.contents_node]
      rw [List.length_insertIdx _ _ (by omega)]
      exact ⟨by omega, by omega⟩
    · simp only [MNode.contents_node]
      rw [hks'eq, hks']
      exact pairwise_insertIdx_rank hpair (by omega) hlowsep hhighsep
    · simp only [MNode.contents_node]
      rw [hks'eq, hks']
      intro k hk
      rcases mem_insertIdx (by omega) hk with rfl | hkmem
      · exact hsepin
      · exact hbnd k hkmem
    · simp only [MNode.contents_node, MNode.children_node]
      rw [hchlen, List.length_insertIdx _ _ (by omega)]
    · intro i hilt
      simp only [MNode.contents_node, MNode.children_node] at hilt ⊢
      rw [hchlen] at hilt
      rw [hks'eq, hchget i (by omega)]
      by_cases h1 : i < pos
      · rw [if_pos h1]
        have hwin1 : lowAt lo ks' i = lowAt lo ks i := by
          unfold lowAt
          by_cases h0 : i = 0
          · rw [if_pos h0, if_pos h0]
          · rw [if_neg h0, if_neg h0, hks'getD_lt (i - 1) (by omega)]
        have hwin2 : highAt hi ks' i = highAt hi ks i := by
          unfold highAt
          rw [if_neg (by omega), if_neg (by omega), hks'getD_lt i h1]
        rw [hwin1, hwin2]
        exact hkids i (by omega) (by omega)
      · by_cases h2 : i = pos
        · subst h2
          rw [if_neg h1, if_pos rfl]
          have hwin1 : lowAt lo ks' i = lowAt lo ks i := by
            unfold lowAt
            by_cases h0 : i = 0
            · rw [if_pos h0, if_pos h0]
            · rw [if_neg h0, if_neg h0, hks'getD_lt (i - 1) (by omega)]
          have hwin2 : highAt hi ks' i = some sep.key := by
            unfold highAt
            rw [if_neg (by omega), hks'getD_self]
          rw [hwin1, hwin2]
          exact hleftwf
        · by_cases h3 : i = pos + 1
          · subst h3
            rw [if_neg h1, if_neg h2, if_pos rfl]
            have hwin1 : lowAt lo ks' (pos + 1) = some sep.key := by
              unfold lowAt
              rw [if_neg (by omega)]
              have : pos + 1 - 1 = pos := rfl
              rw [this, hks'getD_self]
            have hwin2 : highAt hi ks' (pos + 1) = highAt hi ks pos := by
              unfold highAt
              by_cases h4 : pos = ks.length
              · rw [if_pos (by omega), if_pos h4]
              · rw [if_neg (by omega), if_neg h4, hks'getD_gt (pos + 1) (by omega) (by omega)]
                rfl
            rw [hwin1, hwin2]
            exact hrightwf
          · rw [if_neg h1, if_neg h2, if_neg h3]
            have hwin1 : lowAt lo ks' i = lowAt lo ks (i - 1) := by
              unfold lowAt
              rw [if_neg (by omega), if_neg (by omega),
                hks'getD_gt (i - 1) (by omega) (by omega)]
            have hwin2 : highAt hi ks' i = highAt hi ks (i - 1) := by
              unfold highAt
              by_cases h4 : i - 1 = ks.length
              · rw [if_pos (by omega), if_pos h4]
              · rw [if_neg (by omega), if_neg h4, hks'getD_gt i (by omega) (by omega)]
            rw [hwin1, hwin2]
            exact hkids (i - 1) (by omega) (by omega)
  · -- key multiset accounting
    rw [hsplit]
    have hmain : keysM (f' + 1 + 1) (MNode.node n.hash (n.contents.insertIdx pos sep)
        ((n.children.set pos leftN).insertIdx (pos + 1) rightN)) =
        ((sep.key ::ₘ (↑ks : Multiset Int)) +
          (((n.children.map (keysM (f' + 1))).set pos (keysM (f' + 1) leftN)).sum
            + keysM (f' + 1) rightN)) := by
      rw [keysM]
      simp only [MNode.contents_node, MNode.children_node]
      rw [hks'eq, hks', coe_insertIdx _ _ (by omega),
        map_insertIdx _ _ _ (by omega), sum_insertIdx _ _ (by simp; omega), List.map_set]
    rw [hmain]
    have h2 : pos < (n.children.map (keysM (f' + 1))).length := by
      rw [List.length_map]
      omega
    have hset := sum_set_add_getD (n.children.map (keysM (f' + 1))) pos h2
      (keysM (f' + 1) leftN)
    have hpmap : (n.children.map (keysM (f' + 1))).getD pos 0 =
        keysM (f' + 1) (n.children.getD pos default) := by
      rw [List.getD_eq_getElem _ _ h2, List.getElem_map,
        List.getD_eq_getElem _ _ (show pos < n.children.length by omega)]
    rw [hpmap] at hset
    -- the two halves and the separator together carry the overflowed child's keys
    have hhalves : keysM (f' + 1) leftN + {sep.key} + keysM (f' + 1) rightN =
        keysM (f' + 1) cOver := by
      rw [hleftN, hrightN, keysM_attemptHash, keysM_attemptHash, hlch', hrch']
      cases cOver with
      | node oh ocs och =>
        simp only [MNode.contents_node, MNode.children_node] at *
        rw [keysM, keysM, keysM]
        simp only [MNode.contents_node, MNode.children_node]
        rw [List.map_take, List.map_drop, ← hksc]
        have hcoe : (↑(ksc.take (middle m)) : Multiset Int) + {sep.key} +
            ↑(ksc.drop (middle m + 1)) = ↑ksc := by
          rw [← hsepkey, List.getD_eq_getElem _ _ (by omega)]
          exact coe_take_getElem_drop ksc (middle m) (by omega)
        have hsum : ((och.take (middle m + 1)).map (keysM f')).sum +
            ((och.drop (middle m + 1)).map (keysM f')).sum =
            (och.map (keysM f')).sum := by
          rw [List.map_take, List.map_drop]
          exact List.sum_take_add_sum_drop _ _
        calc (↑(ksc.take (middle m)) : Multiset Int) +
              ((och.take (middle m + 1)).map (keysM f')).sum + {sep.key} +
              (↑(ksc.drop (middle m + 1)) + ((och.drop (middle m + 1)).map (keysM f')).sum)
            = ((↑(ksc.take (middle m)) : Multiset Int) + {sep.key} + ↑(ksc.drop (middle m + 1)))
              + (((och.take (middle m + 1)).map (keysM f')).sum
                + ((och.drop (middle m + 1)).map (keysM f')).sum) := by abel
          _ = ↑ksc + (och.map (keysM f')).sum := by rw [hcoe, hsum]
    have hn : keysM (f' + 1 + 1) n = (↑ks : Multiset Int) +
        (n.children.map (keysM (f' + 1))).sum := by
      cases n with
      | node nh ncs nch =>
        rw [keysM]
    rw [hn]
    rw [← hhalves]
    rw [← Multiset.singleton_add]
    calc ({sep.key} : Multiset Int) + ↑ks +
          (((n.children.map (keysM (f' + 1))).set pos (keysM (f' + 1) leftN)).sum
            + keysM (f' + 1) rightN) + keysM (f' + 1) (n.children.getD pos default)
        = ↑ks + ((((n.children.map (keysM (f' + 1))).set pos (keysM (f' + 1) leftN)).sum
            + keysM (f' + 1) (n.children.getD pos default))
            + ({sep.key} + keysM (f' + 1) rightN)) := by abel
      _ = ↑ks + (((n.children.map (keysM (f' + 1))).sum + keysM (f' + 1) leftN)
            + ({sep.key} + keysM (f' + 1) rightN)) := by rw [hset]
      _ = ↑ks + (n.children.map (keysM (f' + 1))).sum +
            (keysM (f' + 1) leftN + {sep.key} + keysM (f' + 1) rightN) := by abel

/-! ### Helpers for the insertion induction -/

/-- `keysM` at positive fuel, without destructuring the node. -/
theorem keysM_succ (fuel : Nat) (n : MNode) :
    keysM (fuel + 1) n =
      ((n.contents.map MContent.key : List Int) : Multiset Int) +
        (n.children.map (keysM fuel)).sum := by
  cases n with
  | node h cs ch => rfl

theorem map_keysM_getD (fuel : Nat) (ch : List MNode) (i : Nat) (hi : i < ch.length) :
    (ch.map (keysM fuel)).getD i 0 = keysM fuel (ch.getD i default) := by
  rw [List.getD_eq_getElem _ _ (by rw [List.length_map]; exact hi), List.getElem_map,
    List.getD_eq_getElem _ _ hi]

/-- Replacing child `i` exchanges exactly that child's keys. -/
theorem keysM_set_child (fuel : Nat) (n : MNode) (i : Nat) (hi : i < n.children.length)
    (x : MNode) :
    keysM (fuel + 1) (MNode.node n.hash n.contents (n.children.set i x))
        + keysM fuel (n.children.getD i default)
      = keysM (fuel + 1) n + keysM fuel x := by
  rw [keysM_succ, keysM_succ]
  simp only [MNode.contents_node, MNode.children_node]
  rw [List.map_set]
  have hset := sum_set_add_getD (n.children.map (keysM fuel)) i
    (by rw [List.length_map]; exact hi) (keysM fuel x)
  rw [map_keysM_getD fuel n.children i hi] at hset
  calc (↑(n.contents.map MContent.key) : Multiset Int)
        + ((n.children.map (keysM fuel)).set i (keysM fuel x)).sum
        + keysM fuel (n.children.getD i default)
      = ↑(n.contents.map MContent.key)
        + (((n.children.map (keysM fuel)).set i (keysM fuel x)).sum
          + keysM fuel (n.children.getD i default)) := by abel
    _ = ↑(n.contents.map MContent.key)
        + ((n.children.map (keysM fuel)).sum + keysM fuel x) := by rw [hset]
    _ = ↑(n.contents.map MContent.key) + (n.children.map (keysM fuel)).sum
        + keysM fuel x := by abel

/-- The top-level content bounds are the only part of a certificate that
depends on `minC`/`maxC`. -/
theorem wfGo_relax {m fuel minC maxC minC2 maxC2 : Nat} {lo hi : Option Int} {n : MNode}
    {h : Nat} (hwf : wfGo m fuel minC maxC lo hi n = some h)
    (h1 : minC2 ≤ n.contents.length) (h2 : n.contents.length ≤ maxC2) :
    wfGo m fuel minC2 maxC2 lo hi n = some h := by
  cases fuel with
  | zero => cases hwf
  | succ fuel =>
    obtain ⟨hcnt, ⟨hpair, hbnd⟩, hrest⟩ := wfGo_some_elim hwf
    rcases hrest with ⟨hleaf, rfl⟩ | ⟨hlen, hh, hkids⟩
    · exact wfGo_leaf_intro ⟨h1, h2⟩ hpair hbnd hleaf
    · have hrw : h = h - 1 + 1 := by omega
      rw [hrw]
      exact wfGo_internal_intro ⟨h1, h2⟩ hpair hbnd hlen hkids

/-- A certificate only depends on the keys, not the payloads, of the
contents. -/
theorem wfGo_congr_keys {m fuel minC maxC : Nat} {lo hi : Option Int} {n n2 : MNode}
    {h : Nat} (hwf : wfGo m fuel minC maxC lo hi n = some h)
    (hkeys : n2.contents.map MContent.key = n.contents.map MContent.key)
    (hlencs : n2.contents.length = n.contents.length)
    (hch : n2.children = n.children) :
    wfGo m fuel minC maxC lo hi n2 = some h := by
  cases fuel with
  | zero => cases hwf
  | succ fuel =>
    obtain ⟨hcnt, ⟨hpair, hbnd⟩, hrest⟩ := wfGo_some_elim hwf
    rcases hrest with ⟨hleaf, rfl⟩ | ⟨hlen2, hh, hkids⟩
    · exact wfGo_leaf_intro ⟨by omega, by omega⟩ (by rw [hkeys]; exact hpair)
        (by rw [hkeys]; exact hbnd) (by rw [hch]; exact hleaf)
    · have hrw : h = h - 1 + 1 := by omega
      rw [hrw]
      exact wfGo_internal_intro ⟨by omega, by omega⟩ (by rw [hkeys]; exact hpair)
        (by rw [hkeys]; exact hbnd) (by rw [hch, hlencs]; exact hlen2)
        (fun i hi => by
          rw [hkeys, hch]
          exact hkids i (by rw [hch] at hi; exact hi))

theorem wfGo_calculateHash {n n2 : MNode} (hch : calculateHash n = .ok n2)
    (m fuel minC maxC : Nat) (lo hi : Option Int) :
    wfGo m fuel minC maxC lo hi n2 = wfGo m fuel minC maxC lo hi n := by
  obtain ⟨h1, h2⟩ := calculateHash_ok_parts hch
  cases n with
  | node nh ncs nch =>
    cases n2 with
    | node nh2 ncs2 nch2 =>
      simp only [MNode.contents_node, MNode.children_node] at h1 h2
      subst h1
      subst h2
      exact wfGo_hash_any ..

theorem keysM_calculateHash {n n2 : MNode} (hch : calculateHash n = .ok n2) (fuel : Nat) :
    keysM fuel n2 = keysM fuel n := by
  obtain ⟨h1, h2⟩ := calculateHash_ok_parts hch
  cases n with
  | node nh ncs nch =>
    cases n2 with
    | node nh2 ncs2 nch2 =>
      simp only [MNode.contents_node, MNode.children_node] at h1 h2
      subst h1
      subst h2
      exact keysM_hash_any ..

/-- A key ranked strictly between positions `pos - 1` and `pos` of a list is
not in the list. -/
theorem notMem_keys_of_rank {ks : List Int} {pos : Nat} {k : Int}
    (hlow : ∀ j, j < ks.length → j < pos → ks.getD j 0 < k)
    (hhigh : ∀ j, j < ks.length → pos ≤ j → k < ks.getD j 0) :
    k ∉ ks := by
  intro hmem
  obtain ⟨j, hj, rfl⟩ := List.mem_iff_getElem.mp hmem
  rcases Nat.lt_or_ge j pos with h | h
  · have := hlow j hj h
    rw [List.getD_eq_getElem _ _ hj] at this
    omega
  · have := hhigh j hj h
    rw [List.getD_eq_getElem _ _ hj] at this
    omega

/-- A key ranked at `pos` in the node's keys lies in child `pos`'s window. -/
theorem inBounds_window_rank {lo hi : Option Int} {ks : List Int} {pos : Nat} {k : Int}
    (hin : inBounds lo hi k = true) (hpos : pos ≤ ks.length)
    (hlow : ∀ j, j < ks.length → j < pos → ks.getD j 0 < k)
    (hhigh : ∀ j, j < ks.length → pos ≤ j → k < ks.getD j 0) :
    inBounds (lowAt lo ks pos) (highAt hi ks pos) k = true := by
  apply inBounds_intro
  · intro lv hlo
    unfold lowAt at hlo
    by_cases h0 : pos = 0
    · rw [if_pos h0] at hlo
      exact inBounds_lo hin hlo
    · rw [if_neg h0] at hlo
      injection hlo with hlo
      subst hlo
      exact hlow (pos - 1) (by omega) (by omega)
  · intro hv hhi
    unfold highAt at hhi
    by_cases hN : pos = ks.length
    · rw [if_pos hN] at hhi
      exact inBounds_hi hin hhi
    · rw [if_neg hN] at hhi
      injection hhi with hhi
      subst hhi
      exact hhigh pos (by omega) (by omega)

/-- In a well-formed internal node, a key ranked at `pos` can only live in
child `pos`: the node's own keys and the other children's windows exclude
it. -/
theorem keysM_mem_child_iff {m fuel minC maxC : Nat} {lo hi : Option Int} {n : MNode}
    {hc : Nat} {k : Int} {pos : Nat}
    (hwf : wfGo m (fuel + 1) minC maxC lo hi n = some hc)
    (hlen : n.children.length = n.contents.length + 1)
    (hpos : pos ≤ n.contents.length)
    (hlow : ∀ j, j < n.contents.length → j < pos →
      (n.contents.map MContent.key).getD j 0 < k)
    (hhigh : ∀ j, j < n.contents.length → pos ≤ j →
      k < (n.contents.map MContent.key).getD j 0) :
    k ∈ keysM (fuel + 1) n ↔ k ∈ keysM fuel (n.children.getD pos default) := by
  obtain ⟨hcnt, ⟨hpair, hbnd⟩, hrest⟩ := wfGo_some_elim hwf
  rcases hrest with ⟨hleaf, _⟩ | ⟨-, hh, hkids⟩
  · omega
  have hkslen : (n.contents.map MContent.key).length = n.contents.length :=
    List.length_map ..
  constructor
  · intro hmem
    rw [keysM_succ] at hmem
    rcases Multiset.mem_add.mp hmem with hks | hsum
    · exfalso
      have hmem2 : k ∈ n.contents.map MContent.key := by simpa using hks
      exact notMem_keys_of_rank (fun j hj => hlow j (by omega))
        (fun j hj => hhigh j (by omega)) hmem2
    · obtain ⟨s, hs, hks2⟩ := mem_list_sum.mp hsum
      obtain ⟨nd, hnd, rfl⟩ := List.mem_map.mp hs
      obtain ⟨i, hilt, rfl⟩ := List.mem_iff_getElem.mp hnd
      by_cases hip : i = pos
      · subst hip
        rw [List.getD_eq_getElem n.children default hilt]
        exact hks2
      · exfalso
        have hkid := hkids i hilt
        rw [List.getD_eq_getElem n.children default hilt] at hkid
        have hinb := wfGo_keys_inBounds hkid k hks2
        rcases Nat.lt_or_ge i pos with hipos | hipos
        · have h1 : k < (n.contents.map MContent.key).getD i 0 :=
            inBounds_hi hinb (by unfold highAt; rw [if_neg (by omega)])
          have h2 : (n.contents.map MContent.key).getD i 0 < k := hlow i (by omega) hipos
          omega
        · have h1 : (n.contents.map MContent.key).getD (i - 1) 0 < k :=
            inBounds_lo hinb (by unfold lowAt; rw [if_neg (by omega)])
          have h2 : k < (n.contents.map MContent.key).getD (i - 1) 0 :=
            hhigh (i - 1) (by omega) (by omega)
          omega
  · intro hmem
    rw [keysM_succ]
    apply Multiset.mem_add.mpr
    right
    apply mem_list_sum.mpr
    refine ⟨keysM fuel (n.children.getD pos default), ?_, hmem⟩
    apply List.mem_map.mpr
    refine ⟨n.children.getD pos default, ?_, rfl⟩
    rw [List.getD_eq_getElem n.children default (by omega)]
    exact List.getElem_mem _

/-! ### The three branches of `insert` -/

theorem insertGo_found (m fuel : Nat) (n : MNode) (c : MContent)
    (hf : (searchNode n.contents c).2 = true) :
    insertGo m (fuel + 1) n c = insertIntoFound n (searchNode n.contents c).1 c := by
  unfold insertGo
  dsimp only
  rw [hf]
  rfl

theorem insertGo_leaf (m fuel : Nat) (n : MNode) (c : MContent)
    (hf : (searchNode n.contents c).2 = false) (hleaf : n.children.length = 0) :
    insertGo m (fuel + 1) n c =
      (let nn := MNode.node n.hash
        (n.contents.insertIdx (searchNode n.contents c).1 c) n.children
       if nn.contents.length > maxContents m then (nn, UpIns.over, true)
       else match calculateHash nn with
         | .ok n2 => (n2, UpIns.rehash, true)
         | .error _ => (nn, UpIns.stop, true)) := by
  unfold insertGo
  dsimp only
  rw [hf, if_neg (by simp), if_pos hleaf]

theorem insertGo_internal (m fuel : Nat) (n : MNode) (c : MContent)
    (hf : (searchNode n.contents c).2 = false) (hleaf : n.children.length ≠ 0) :
    insertGo m (fuel + 1) n c =
      (let res := insertGo m fuel (n.children.getD (searchNode n.contents c).1 default) c
       match res.2.1 with
       | .rehash =>
         let n1 := MNode.node n.hash n.contents
           (n.children.set (searchNode n.contents c).1 res.1)
         match calculateHash n1 with
         | .ok n2 => (n2, UpIns.rehash, res.2.2)
         | .error _ => (n1, UpIns.stop, res.2.2)
       | .stop => (MNode.node n.hash n.contents
           (n.children.set (searchNode n.contents c).1 res.1), UpIns.stop, res.2.2)
       | .over =>
         let p2 := splitChild m n (searchNode n.contents c).1 res.1
         if p2.contents.length > maxContents m then (attemptHash p2, UpIns.over, res.2.2)
         else match calculateHash p2 with
           | .ok p3 => (p3, UpIns.rehash, res.2.2)
           | .error _ => (p2, UpIns.stop, res.2.2)) := by
  conv_lhs => rw [insertGo]
  dsimp only
  rw [hf, if_neg (by simp), if_neg hleaf]

theorem add_exchange_cons {X N K R : Multiset Int} {k : Int}
    (hx : X + K = N + R) (hT : R = k ::ₘ K) : X = k ::ₘ N := by
  have h2 : X + K = (k ::ₘ N) + K := by
    rw [hx, hT, ← Multiset.singleton_add, ← Multiset.singleton_add]
    abel
  exact add_right_cancel h2

theorem add_exchange_eq {X N K R : Multiset Int}
    (hx : X + K = N + R) (hT : R = K) : X = N := by
  have h2 : X + K = N + K := by rw [hx, hT]
  exact add_right_cancel h2

/-- The induction behind `put` on a non-empty tree: on a well-formed subtree,
`insert` keeps the certificate (over-status nodes carry exactly `m`
contents), the height never changes, the `inserted` flag is `true` exactly
when the key was absent, and the key multiset gains exactly the new key
(insertion) or is unchanged (overwrite). -/
theorem insertGo_spec {m : Nat} (hm : 3 ≤ m) :
    ∀ (fuel : Nat) {minC : Nat} {lo hi : Option Int} {n : MNode} {hc : Nat} {c : MContent},
      wfGo m fuel minC (maxContents m) lo hi n = some hc →
      inBounds lo hi c.key = true →
      ((insertGo m fuel n c).2.2 = true →
          keysM fuel (insertGo m fuel n c).1 = c.key ::ₘ keysM fuel n ∧
            c.key ∉ keysM fuel n) ∧
      ((insertGo m fuel n c).2.2 = false →
          keysM fuel (insertGo m fuel n c).1 = keysM fuel n ∧ c.key ∈ keysM fuel n) ∧
      ((insertGo m fuel n c).2.1 = UpIns.over →
          wfGo m fuel m m lo hi (insertGo m fuel n c).1 = some hc) ∧
      ((insertGo m fuel n c).2.1 ≠ UpIns.over →
          wfGo m fuel minC (maxContents m) lo hi (insertGo m fuel n c).1 = some hc) := by
  intro fuel
  induction fuel with
  | zero => intro minC lo hi n hc c hwf hin; cases hwf
  | succ fuel ih =>
    intro minC lo hi n hc c hwf hin
    obtain ⟨hcnt, ⟨hpair, hbnd⟩, hrest⟩ := wfGo_some_elim hwf
    have hmaxc : maxContents m = m - 1 := rfl
    have hspec := searchNode_spec n.contents c hpair
    have hkslen : (n.contents.map MContent.key).length = n.contents.length :=
      List.length_map ..
    rcases hf : (searchNode n.contents c).2 with _ | _
    · -- not found
      obtain ⟨hposle, hlow, hhigh⟩ := hspec.2 hf
      by_cases hleafQ : n.children.length = 0
      · -- leaf: splice the content in at the insertion point
        rcases hrest with ⟨hleaf, rfl⟩ | ⟨hlen, hh, hkids⟩
        · rw [insertGo_leaf m fuel n c hf hleafQ]
          dsimp only
          set pos := (searchNode n.contents c).1 with hposdef
          set nn := MNode.node n.hash (n.contents.insertIdx pos c) n.children with hnn
          have hnnlen : nn.contents.length = n.contents.length + 1 := by
            rw [hnn]
            simp only [MNode.contents_node]
            rw [List.length_insertIdx _ _ (by omega)]
          have hnnkeys : nn.contents.map MContent.key
              = (n.contents.map MContent.key).insertIdx pos c.key := by
            rw [hnn]
            simp only [MNode.contents_node]
            exact map_insertIdx _ _ _ (by omega) _
          have hnnch : nn.children = n.children := by
            rw [hnn]
            rfl
          have hnotks : c.key ∉ n.contents.map MContent.key :=
            notMem_keys_of_rank (fun j hj => hlow j (by omega))
              (fun j hj => hhigh j (by omega))
          have hnotmem : c.key ∉ keysM (fuel + 1) n := by
            rw [keysM_succ, List.length_eq_zero.mp hleafQ]
            simp only [List.map_nil, List.sum_nil, add_zero]
            exact fun hmem2 => hnotks (by simpa using hmem2)
          have hkeysnn : keysM (fuel + 1) nn = c.key ::ₘ keysM (fuel + 1) n := by
            rw [keysM_succ, keysM_succ, hnnkeys, hnnch, coe_insertIdx _ _ (by omega) _,
              Multiset.cons_add]
          have hpairnn : List.Pairwise (· < ·) (nn.contents.map MContent.key) := by
            rw [hnnkeys]
            exact pairwise_insertIdx_rank hpair (by omega)
              (fun j hj => hlow j (by omega)) (fun j hj => hhigh j (by omega))
          have hbndnn : ∀ k ∈ nn.contents.map MContent.key, inBounds lo hi k = true := by
            rw [hnnkeys]
            intro k hk
            rcases mem_insertIdx (by omega) hk with rfl | hkmem
            · exact hin
            · exact hbnd k hkmem
          by_cases hovQ : nn.contents.length > maxContents m
          · rw [if_pos hovQ]
            dsimp only
            refine ⟨fun _ => ⟨hkeysnn, hnotmem⟩, ?_, fun _ => ?_, fun hne => absurd rfl hne⟩
            · intro hfl
              cases hfl
            · exact wfGo_leaf_intro ⟨by omega, by omega⟩ hpairnn hbndnn
                (by rw [hnnch]; exact hleafQ)
          · rw [if_neg hovQ]
            have hwfnn : wfGo m (fuel + 1) minC (maxContents m) lo hi nn = some 1 :=
              wfGo_leaf_intro ⟨by omega, by omega⟩ hpairnn hbndnn
                (by rw [hnnch]; exact hleafQ)
            rcases hch : calculateHash nn with e | n2
            · dsimp only
              refine ⟨fun _ => ⟨hkeysnn, hnotmem⟩, ?_, ?_, fun _ => hwfnn⟩
              · intro hfl
                cases hfl
              · intro hov
                cases hov
            · dsimp only
              refine ⟨fun _ => ⟨?_, hnotmem⟩, ?_, ?_, fun _ => ?_⟩
              · rw [keysM_calculateHash hch]
                exact hkeysnn
              · intro hfl
                cases hfl
              · intro hov
                cases hov
              · rw [wfGo_calculateHash hch]
                exact hwfnn
        · omega
      · -- internal: descend into child `pos`
        rcases hrest with ⟨hleaf, rfl⟩ | ⟨hlen, hh, hkids⟩
        · exact absurd hleaf hleafQ
        · rw [insertGo_internal m fuel n c hf hleafQ]
          dsimp only
          set pos := (searchNode n.contents c).1 with hposdef
          set res := insertGo m fuel (n.children.getD pos default) c with hres
          have hposltch : pos < n.children.length := by omega
          have hchildwf := hkids pos hposltch
          have hcw : inBounds (lowAt lo (n.contents.map MContent.key) pos)
              (highAt hi (n.contents.map MContent.key) pos) c.key = true :=
            inBounds_window_rank hin (by omega) (fun j hj => hlow j (by omega))
              (fun j hj => hhigh j (by omega))
          have HIH := ih hchildwf hcw
          have hmemiff := keysM_mem_child_iff hwf hlen (by omega) hlow hhigh
          rcases hst : res.2.1 with _ | _ | _
          · -- child reports rehash: rewire and recompute this node's hash
            dsimp only
            set n1 := MNode.node n.hash n.contents (n.children.set pos res.1) with hn1
            have hreswf : wfGo m fuel (minContents m) (maxContents m)
                (lowAt lo (n.contents.map MContent.key) pos)
                (highAt hi (n.contents.map MContent.key) pos) res.1 = some (hc - 1) :=
              HIH.2.2.2 (by intro hx; rw [hst] at hx; cases hx)
            have hwfn1 : wfGo m (fuel + 1) minC (maxContents m) lo hi n1 = some hc := by
              have hrw : hc = hc - 1 + 1 := by omega
              rw [hn1, hrw]
              apply wfGo_internal_intro
              · simp only [MNode.contents_node]
                exact hcnt
              · simp only [MNode.contents_node]
                exact hpair
              · simp only [MNode.contents_node]
                exact hbnd
              · simp only [MNode.contents_node, MNode.children_node]
                rw [List.length_set]
                exact hlen
              · intro i hilt
                simp only [MNode.contents_node, MNode.children_node] at hilt ⊢
                rw [List.length_set] at hilt
                rw [getD_set default (by omega) res.1]
                by_cases hip : pos = i
                · subst hip
                  rw [if_pos rfl]
                  exact hreswf
                · rw [if_neg hip]
                  exact hkids i hilt
            have hkeyn1 : keysM (fuel + 1) n1 + keysM fuel (n.children.getD pos default)
                = keysM (fuel + 1) n + keysM fuel res.1 := by
              rw [hn1]
              exact keysM_set_child fuel n pos hposltch res.1
            rcases hch : calculateHash n1 with e | n2
            · dsimp only
              refine ⟨fun hflag => ?_, fun hflag => ?_, ?_, fun _ => hwfn1⟩
              · obtain ⟨hkr, hnm⟩ := HIH.1 hflag
                exact ⟨add_exchange_cons hkeyn1 hkr, fun hmem => hnm (hmemiff.mp hmem)⟩
              · obtain ⟨hkr, hmm⟩ := HIH.2.1 hflag
                exact ⟨add_exchange_eq hkeyn1 hkr, hmemiff.mpr hmm⟩
              · intro hov
                cases hov
            · dsimp only
              refine ⟨fun hflag => ?_, fun hflag => ?_, ?_, fun _ => ?_⟩
              · obtain ⟨hkr, hnm⟩ := HIH.1 hflag
                refine ⟨?_, fun hmem => hnm (hmemiff.mp hmem)⟩
                rw [keysM_calculateHash hch]
                exact add_exchange_cons hkeyn1 hkr
              · obtain ⟨hkr, hmm⟩ := HIH.2.1 hflag
                refine ⟨?_, hmemiff.mpr hmm⟩
                rw [keysM_calculateHash hch]
                exact add_exchange_eq hkeyn1 hkr
              · intro hov
                cases hov
              · rw [wfGo_calculateHash hch]
                exact hwfn1
          · -- child reports stop: rewire only
            dsimp only
            set n1 := MNode.node n.hash n.contents (n.children.set pos res.1) with hn1
            have hreswf : wfGo m fuel (minContents m) (maxContents m)
                (lowAt lo (n.contents.map MContent.key) pos)
                (highAt hi (n.contents.map MContent.key) pos) res.1 = some (hc - 1) :=
              HIH.2.2.2 (by intro hx; rw [hst] at hx; cases hx)
            have hwfn1 : wfGo m (fuel + 1) minC (maxContents m) lo hi n1 = some hc := by
              have hrw : hc = hc - 1 + 1 := by omega
              rw [hn1, hrw]
              apply wfGo_internal_intro
              · simp only [MNode.contents_node]
                exact hcnt
              · simp only [MNode.contents_node]
                exact hpair
              · simp only [MNode.contents_node]
                exact hbnd
              · simp only [MNode.contents_node, MNode.children_node]
                rw [List.length_set]
                exact hlen
              · intro i hilt
                simp only [MNode.contents_node, MNode.children_node] at hilt ⊢
                rw [List.length_set] at hilt
                rw [getD_set default (by omega) res.1]
                by_cases hip : pos = i
                · subst hip
                  rw [if_pos rfl]
                  exact hreswf
                · rw [if_neg hip]
                  exact hkids i hilt
            have hkeyn1 : keysM (fuel + 1) n1 + keysM fuel (n.children.getD pos default)
                = keysM (fuel + 1) n + keysM fuel res.1 := by
              rw [hn1]
              exact keysM_set_child fuel n pos hposltch res.1
            refine ⟨fun hflag => ?_, fun hflag => ?_, ?_, fun _ => hwfn1⟩
            · obtain ⟨hkr, hnm⟩ := HIH.1 hflag
              exact ⟨add_exchange_cons hkeyn1 hkr, fun hmem => hnm (hmemiff.mp hmem)⟩
            · obtain ⟨hkr, hmm⟩ := HIH.2.1 hflag
              exact ⟨add_exchange_eq hkeyn1 hkr, hmemiff.mpr hmm⟩
            · intro hov
              cases hov
          · -- child overflowed: splice the split halves into this node
            dsimp only
            have hresover : wfGo m fuel m m
                (lowAt lo (n.contents.map MContent.key) pos)
                (highAt hi (n.contents.map MContent.key) pos) res.1 = some (hc - 1) :=
              HIH.2.2.1 hst
            obtain ⟨hwfp2, hkeyp2⟩ := splitChild_spec hm hcnt.2 hpair hbnd hlen (by omega)
              (fun i hilt _ => hkids i hilt) hresover (le_refl (n.contents.length + 1))
            have hc1 : hc - 1 + 1 = hc := by omega
            rw [hc1] at hwfp2
            have hp2len : (splitChild m n pos res.1).contents.length
                = n.contents.length + 1 := by
              obtain ⟨hcnt2, -, -⟩ := wfGo_some_elim hwfp2
              omega
            by_cases hovQ : (splitChild m n pos res.1).contents.length > maxContents m
            · rw [if_pos hovQ]
              have hwfov : wfGo m (fuel + 1) m m lo hi
                  (attemptHash (splitChild m n pos res.1)) = some hc := by
                rw [wfGo_attemptHash]
                exact wfGo_relax hwfp2 (by omega) (by omega)
              refine ⟨fun hflag => ?_, fun hflag => ?_, fun _ => hwfov,
                fun hne => absurd rfl hne⟩
              · obtain ⟨hkr, hnm⟩ := HIH.1 hflag
                refine ⟨?_, fun hmem => hnm (hmemiff.mp hmem)⟩
                rw [keysM_attemptHash]
                exact add_exchange_cons hkeyp2 hkr
              · obtain ⟨hkr, hmm⟩ := HIH.2.1 hflag
                refine ⟨?_, hmemiff.mpr hmm⟩
                rw [keysM_attemptHash]
                exact add_exchange_eq hkeyp2 hkr
            · rw [if_neg hovQ]
              have hwfp2r : wfGo m (fuel + 1) minC (maxContents m) lo hi
                  (splitChild m n pos res.1) = some hc :=
                wfGo_relax hwfp2 (by omega) (by omega)
              rcases hch : calculateHash (splitChild m n pos res.1) with e | p3
              · dsimp only
                refine ⟨fun hflag => ?_, fun hflag => ?_, ?_, fun _ => hwfp2r⟩
                · obtain ⟨hkr, hnm⟩ := HIH.1 hflag
                  exact ⟨add_exchange_cons hkeyp2 hkr, fun hmem => hnm (hmemiff.mp hmem)⟩
                · obtain ⟨hkr, hmm⟩ := HIH.2.1 hflag
                  exact ⟨add_exchange_eq hkeyp2 hkr, hmemiff.mpr hmm⟩
                · intro hov
                  cases hov
              · dsimp only
                refine ⟨fun hflag => ?_, fun hflag => ?_, ?_, fun _ => ?_⟩
                · obtain ⟨hkr, hnm⟩ := HIH.1 hflag
                  refine ⟨?_, fun hmem => hnm (hmemiff.mp hmem)⟩
                  rw [keysM_calculateHash hch]
                  exact add_exchange_cons hkeyp2 hkr
                · obtain ⟨hkr, hmm⟩ := HIH.2.1 hflag
                  refine ⟨?_, hmemiff.mpr hmm⟩
                  rw [keysM_calculateHash hch]
                  exact add_exchange_eq hkeyp2 hkr
                · intro hov
                  cases hov
                · rw [wfGo_calculateHash hch]
                  exact hwfp2r
    · -- found: overwrite in place
      obtain ⟨hposlt, hkeyeq⟩ := hspec.1 hf
      rw [insertGo_found m fuel n c hf]
      unfold insertIntoFound
      dsimp only
      set pos := (searchNode n.contents c).1 with hposdef
      set n1 := MNode.node n.hash (n.contents.set pos c) n.children with hn1
      have hkslen2 : pos < (n.contents.map MContent.key).length := by omega
      have hksset : (n.contents.set pos c).map MContent.key
          = n.contents.map MContent.key := by
        rw [List.map_set, ← hkeyeq, List.getD_eq_getElem _ _ hkslen2]
        exact set_getElem_self _ _ hkslen2
      have hn1keys : n1.contents.map MContent.key = n.contents.map MContent.key := by
        rw [hn1]
        simp only [MNode.contents_node]
        exact hksset
      have hn1len : n1.contents.length = n.contents.length := by
        rw [hn1]
        simp only [MNode.contents_node]
        exact List.length_set ..
      have hn1ch : n1.children = n.children := by
        rw [hn1]
        rfl
      have hwfn1 : wfGo m (fuel + 1) minC (maxContents m) lo hi n1 = some hc :=
        wfGo_congr_keys hwf hn1keys hn1len hn1ch
      have hkeysn1 : keysM (fuel + 1) n1 = keysM (fuel + 1) n := by
        rw [keysM_succ, keysM_succ, hn1keys, hn1ch]
      have hmemk : c.key ∈ keysM (fuel + 1) n := by
        rw [keysM_succ]
        apply Multiset.mem_add.mpr
        left
        rw [← hkeyeq, List.getD_eq_getElem _ _ hkslen2]
        exact Multiset.mem_coe.mpr (List.getElem_mem _)
      rcases hch : calculateHash n1 with e | n2
      · dsimp only
        refine ⟨?_, fun _ => ⟨hkeysn1, hmemk⟩, ?_, fun _ => hwfn1⟩
        · intro hflag
          cases hflag
        · intro hov
          cases hov
      · dsimp only
        refine ⟨?_, fun _ => ⟨?_, hmemk⟩, ?_, fun _ => ?_⟩
        · intro hflag
          cases hflag
        · rw [keysM_calculateHash hch]
          exact hkeysn1
        · intro hov
          cases hov
        · rw [wfGo_calculateHash hch]
          exact hwfn1

/-- `tree.splitRoot()` on an overflowed (`m`-content) root: the new root
holds exactly the promoted separator, its two children are the halves, the
height grows by one, and the key multiset is unchanged. -/
theorem splitRoot_spec {m : Nat} (hm : 3 ≤ m) {fuel : Nat} {lo hi : Option Int}
    {r : MNode} {hc : Nat} (hov : wfGo m fuel m m lo hi r = some hc) :
    wfGo m (fuel + 1) 1 (maxContents m) lo hi (splitRootNode m r) = some (hc + 1) ∧
    keysM (fuel + 1) (splitRootNode m r) = keysM fuel r := by
  obtain ⟨hc1, hfuel1⟩ := wfGo_pos hov
  obtain ⟨f', rfl⟩ : ∃ f', fuel = f' + 1 := ⟨fuel - 1, by omega⟩
  obtain ⟨hocnt, ⟨hopair, hobnd⟩, horest⟩ := wfGo_some_elim hov
  obtain ⟨hm1, hm2, hm3, hm4, hm5⟩ := middle_bounds hm
  have hmaxc : maxContents m = m - 1 := rfl
  have holen : r.contents.length = m := by omega
  set ksc := r.contents.map MContent.key with hksc
  have hksclen : ksc.length = r.contents.length := by simp [hksc]
  set sep := r.contents.getD (middle m) default with hsep
  have hsepkey : ksc.getD (middle m) 0 = sep.key := key_getD (by omega)
  have hsepbnd : inBounds lo hi sep.key = true := by
    rw [← hsepkey]
    apply hobnd
    rw [List.getD_eq_getElem _ _ (by omega)]
    exact List.getElem_mem _
  set lch := if r.children.length = 0 then ([] : List MNode)
    else r.children.take (middle m + 1) with hlch
  set rch := if r.children.length = 0 then ([] : List MNode)
    else r.children.drop (middle m + 1) with hrch
  set leftN := attemptHash (MNode.node none (r.contents.take (middle m)) lch) with hleftN
  set rightN := attemptHash (MNode.node none (r.contents.drop (middle m + 1)) rch)
    with hrightN
  have hlch' : lch = r.children.take (middle m + 1) := by
    rw [hlch]
    split
    · rename_i h0
      rw [List.length_eq_zero.mp h0]
      rfl
    · rfl
  have hrch' : rch = r.children.drop (middle m + 1) := by
    rw [hrch]
    split
    · rename_i h0
      rw [List.length_eq_zero.mp h0]
      rfl
    · rfl
  have hleftwf : wfGo m (f' + 1) (minContents m) (maxContents m) lo (some sep.key) leftN
      = some hc := by
    rw [hleftN, wfGo_attemptHash, hlch', ← hsepkey]
    exact split_left_wf hm hov
  have hrightwf : wfGo m (f' + 1) (minContents m) (maxContents m) (some sep.key) hi rightN
      = some hc := by
    rw [hrightN, wfGo_attemptHash, hrch', ← hsepkey]
    exact split_right_wf hm hov
  have hsplit : splitRootNode m r = attemptHash (MNode.node none [sep] [leftN, rightN]) := by
    unfold splitRootNode
    dsimp only
    rw [← hsep]
    have hfst : (if r.children.length = 0 then (([] : List MNode), ([] : List MNode))
        else (r.children.take (middle m + 1), r.children.drop (middle m + 1))).1 = lch := by
      by_cases h0 : r.children.length = 0
      · rw [hlch, if_pos h0, if_pos h0]
      · rw [hlch, if_neg h0, if_neg h0]
    have hsnd : (if r.children.length = 0 then (([] : List MNode), ([] : List MNode))
        else (r.children.take (middle m + 1), r.children.drop (middle m + 1))).2 = rch := by
      by_cases h0 : r.children.length = 0
      · rw [hrch, if_pos h0, if_pos h0]
      · rw [hrch, if_neg h0, if_neg h0]
    rw [hfst, hsnd, ← hleftN, ← hrightN]
  have hhalves : keysM (f' + 1) leftN + {sep.key} + keysM (f' + 1) rightN =
      keysM (f' + 1) r := by
    rw [hleftN, hrightN, keysM_attemptHash, keysM_attemptHash, hlch', hrch']
    cases r with
    | node oh ocs och =>
      simp only [MNode.contents_node, MNode.children_node] at *
      rw [keysM, keysM, keysM]
      simp only [MNode.contents_node, MNode.children_node]
      rw [List.map_take, List.map_drop, ← hksc]
      have hcoe : (↑(ksc.take (middle m)) : Multiset Int) + {sep.key} +
          ↑(ksc.drop (middle m + 1)) = ↑ksc := by
        rw [← hsepkey, List.getD_eq_getElem _ _ (by omega)]
        exact coe_take_getElem_drop ksc (middle m) (by omega)
      have hsum : ((och.take (middle m + 1)).map (keysM f')).sum +
          ((och.drop (middle m + 1)).map (keysM f')).sum =
          (och.map (keysM f')).sum := by
        rw [List.map_take, List.map_drop]
        exact List.sum_take_add_sum_drop _ _
      calc (↑(ksc.take (middle m)) : Multiset Int) +
            ((och.take (middle m + 1)).map (keysM f')).sum + {sep.key} +
            (↑(ksc.drop (middle m + 1)) + ((och.drop (middle m + 1)).map (keysM f')).sum)
          = ((↑(ksc.take (middle m)) : Multiset Int) + {sep.key} + ↑(ksc.drop (middle m + 1)))
            + (((och.take (middle m + 1)).map (keysM f')).sum
              + ((och.drop (middle m + 1)).map (keysM f')).sum) := by abel
        _ = ↑ksc + (och.map (keysM f')).sum := by rw [hcoe, hsum]
  constructor
  · rw [hsplit, wfGo_attemptHash]
    apply wfGo_internal_intro
    · simp only [MNode.contents_node, List.length_singleton]
      exact ⟨by omega, by omega⟩
    · simp only [MNode.contents_node, List.map_cons, List.map_nil]
      exact List.pairwise_singleton _ _
    · simp only [MNode.contents_node, List.map_cons, List.map_nil]
      intro k hk
      rw [List.mem_singleton] at hk
      subst hk
      exact hsepbnd
    · simp only [MNode.contents_node, MNode.children_node]
      rfl
    · intro i hilt
      simp only [MNode.contents_node, MNode.children_node] at hilt ⊢
      have hilt2 : i < 2 := by simpa using hilt
      rcases i with _ | i
      · unfold lowAt highAt
        rw [if_pos rfl, if_neg (by simp)]
        exact hleftwf
      · rcases i with _ | i
        · unfold lowAt highAt
          rw [if_neg (by omega), if_pos (by simp)]
          exact hrightwf
        · omega
  · rw [hsplit, keysM_attemptHash, keysM_succ]
    simp only [MNode.contents_node, MNode.children_node, List.map_cons, List.map_nil,
      List.sum_cons, List.sum_nil, Multiset.coe_singleton]
    rw [← hhalves]
    abel

/-- `Put` on a non-empty tree never panics. -/
theorem putT_nonempty_ok (t : MTree) (c : MContent) {r : MNode} (hr : t.root = some r) :
    ∃ t2, putT t c = .ok t2 := by
  unfold putT
  rw [hr]
  exact ⟨_, rfl⟩

theorem wfT_mk {mm s : Nat} {rt : MNode} (h3 : 3 ≤ mm) {hcx : Nat}
    (hwfx : wfGo mm (s + 1) 1 (maxContents mm) none none rt = some hcx)
    (hcardx : Multiset.card (keysM (s + 1) rt) = s) :
    wfT ⟨some rt, s, mm⟩ := by
  unfold wfT wfB
  dsimp only
  rw [Bool.and_eq_true, Bool.and_eq_true]
  refine ⟨by simpa using h3, ?_, by simpa using hcardx⟩
  rw [hwfx]
  rfl

theorem keysMT_mk (rt : MNode) (s mm : Nat) :
    keysMT ⟨some rt, s, mm⟩ = keysM (s + 2) rt := rfl

theorem keysMT_some {t : MTree} {r : MNode} (hr : t.root = some r) :
    keysMT t = keysM (t.size + 2) r := by
  unfold keysMT treeFuel
  rw [hr]

theorem keysMT_none {t : MTree} (hr : t.root = none) : keysMT t = 0 := by
  unfold keysMT
  rw [hr]

/-- `Tree.Put` on a well-formed tree: whenever it returns normally, the
result is well-formed with the same order, and either the key was absent —
the key multiset gains it and `size` grows by one — or it was present —
the key multiset and `size` are unchanged. -/
theorem putT_spec {t : MTree} (hwf : wfT t) {c : MContent} {t2 : MTree}
    (hok : putT t c = .ok t2) :
    wfT t2 ∧ t2.m = t.m ∧
      ((c.key ∉ keysMT t ∧ keysMT t2 = c.key ::ₘ keysMT t ∧ t2.size = t.size + 1) ∨
        (c.key ∈ keysMT t ∧ keysMT t2 = keysMT t ∧ t2.size = t.size)) := by
  unfold wfT wfB at hwf
  rw [Bool.and_eq_true] at hwf
  obtain ⟨h3b, hrest⟩ := hwf
  have h3 : 3 ≤ t.m := by simpa using h3b
  have hmaxc : maxContents t.m = t.m - 1 := rfl
  unfold putT at hok
  cases hr : t.root with
  | none =>
    rw [hr] at hok hrest
    have hsz : t.size = 0 := by simpa using hrest
    dsimp only at hok
    rcases hch : calculateHash (MNode.node none [c] []) with e | r
    · rw [hch] at hok
      cases hok
    · rw [hch] at hok
      dsimp only at hok
      rw [Except.ok.injEq] at hok
      subst hok
      obtain ⟨hcs, hchld⟩ := calculateHash_ok_parts hch
      simp only [MNode.contents_node, MNode.children_node] at hcs hchld
      have hkeysr : ∀ fuel, 1 ≤ fuel → keysM fuel r = {c.key} := by
        intro fuel hf
        obtain ⟨f2, rfl⟩ : ∃ f2, fuel = f2 + 1 := ⟨fuel - 1, by omega⟩
        rw [keysM_succ, hcs, hchld]
        simp
      have hwfr : ∀ fuel, 1 ≤ fuel →
          wfGo t.m fuel 1 (maxContents t.m) none none r = some 1 := by
        intro fuel hf
        obtain ⟨f2, rfl⟩ : ∃ f2, fuel = f2 + 1 := ⟨fuel - 1, by omega⟩
        apply wfGo_leaf_intro
        · constructor
          · rw [hcs]
            simp
          · rw [hcs]
            simp only [List.length_cons, List.length_nil]
            omega
        · rw [hcs]
          simp
        · rw [hcs]
          intro k hk
          rfl
        · rw [hchld]
          rfl
      refine ⟨?_, rfl, Or.inl ⟨?_, ?_, rfl⟩⟩
      · apply wfT_mk h3 (hwfr _ (by omega))
        rw [hkeysr _ (by omega)]
        simp only [Multiset.card_singleton]
        omega
      · rw [keysMT_none hr]
        exact Multiset.not_mem_zero _
      · rw [keysMT_mk, keysMT_none hr, hkeysr _ (by omega)]
        exact (Multiset.cons_zero _).symm
  | some r =>
    rw [hr] at hok hrest
    rw [Bool.and_eq_true] at hrest
    obtain ⟨hsomeb, hcardb⟩ := hrest
    have hcard : Multiset.card (keysM (t.size + 1) r) = t.size := by simpa using hcardb
    rcases hwo : wfGo t.m (t.size + 1) 1 (maxContents t.m) none none r with _ | hc
    · rw [hwo] at hsomeb
      simp at hsomeb
    · have hcle : hc ≤ t.size := by
        have := wfGo_card_ge h3 (by omega) hwo
        omega
      have hwo2 : wfGo t.m (t.size + 2) 1 (maxContents t.m) none none r = some hc :=
        (wfGo_fuel hwo).2 (t.size + 2) (by omega)
      have hin : inBounds (none : Option Int) none c.key = true := rfl
      have HIH := insertGo_spec h3 (t.size + 2) hwo2 hin
      have htf : treeFuel t = t.size + 2 := rfl
      rw [htf] at hok
      dsimp only at hok
      set res := insertGo t.m (t.size + 2) r c with hres
      have hkr21 : keysM (t.size + 2) r = keysM (t.size + 1) r :=
        keysM_fuel hwo (t.size + 2) (t.size + 1) (by omega) (by omega)
      have hkeyst : keysMT t = keysM (t.size + 2) r := keysMT_some hr
      rcases hst : res.2.1 with _ | _ | _
      · -- rehash at the root
        rw [hst] at hok
        dsimp only at hok
        have hne : res.2.1 ≠ UpIns.over := by
          rw [hst]
          intro hx
          cases hx
        have hwfres := HIH.2.2.2 hne
        have hkres : ∀ f2, hc ≤ f2 → keysM f2 res.1 = keysM (t.size + 2) res.1 :=
          fun f2 hf2 => keysM_fuel hwfres f2 (t.size + 2) hf2 (by omega)
        rcases hfl : res.2.2 with _ | _
        · rw [hfl, if_neg (by simp)] at hok
          rw [Except.ok.injEq] at hok
          subst hok
          obtain ⟨hkeq, hmem⟩ := HIH.2.1 hfl
          refine ⟨?_, rfl, Or.inr ⟨?_, ?_, rfl⟩⟩
          · apply wfT_mk h3 ((wfGo_fuel hwfres).2 (t.size + 0 + 1) (by omega))
            rw [hkres _ (by omega), hkeq, hkr21, hcard]
            omega
          · rw [hkeyst]
            exact hmem
          · rw [keysMT_mk, hkres _ (by omega), hkeq, hkeyst]
        · rw [hfl, if_pos rfl] at hok
          rw [Except.ok.injEq] at hok
          subst hok
          obtain ⟨hkeq, hnmem⟩ := HIH.1 hfl
          refine ⟨?_, rfl, Or.inl ⟨?_, ?_, rfl⟩⟩
          · apply wfT_mk h3 ((wfGo_fuel hwfres).2 (t.size + 1 + 1) (by omega))
            rw [hkres _ (by omega), hkeq]
            simp only [Multiset.card_cons]
            rw [hkr21, hcard]
          · rw [hkeyst]
            exact hnmem
          · rw [keysMT_mk, hkres _ (by omega), hkeq, hkeyst]
      · -- stop at the root
        rw [hst] at hok
        dsimp only at hok
        have hne : res.2.1 ≠ UpIns.over := by
          rw [hst]
          intro hx
          cases hx
        have hwfres := HIH.2.2.2 hne
        have hkres : ∀ f2, hc ≤ f2 → keysM f2 res.1 = keysM (t.size + 2) res.1 :=
          fun f2 hf2 => keysM_fuel hwfres f2 (t.size + 2) hf2 (by omega)
        rcases hfl : res.2.2 with _ | _
        · rw [hfl, if_neg (by simp)] at hok
          rw [Except.ok.injEq] at hok
          subst hok
          obtain ⟨hkeq, hmem⟩ := HIH.2.1 hfl
          refine ⟨?_, rfl, Or.inr ⟨?_, ?_, rfl⟩⟩
          · apply wfT_mk h3 ((wfGo_fuel hwfres).2 (t.size + 0 + 1) (by omega))
            rw [hkres _ (by omega), hkeq, hkr21, hcard]
            omega
          · rw [hkeyst]
            exact hmem
          · rw [keysMT_mk, hkres _ (by omega), hkeq, hkeyst]
        · rw [hfl, if_pos rfl] at hok
          rw [Except.ok.injEq] at hok
          subst hok
          obtain ⟨hkeq, hnmem⟩ := HIH.1 hfl
          refine ⟨?_, rfl, Or.inl ⟨?_, ?_, rfl⟩⟩
          · apply wfT_mk h3 ((wfGo_fuel hwfres).2 (t.size + 1 + 1) (by omega))
            rw [hkres _ (by omega), hkeq]
            simp only [Multiset.card_cons]
            rw [hkr21, hcard]
          · rw [hkeyst]
            exact hnmem
          · rw [keysMT_mk, hkres _ (by omega), hkeq, hkeyst]
      · -- the root overflowed: split it
        rw [hst] at hok
        dsimp only at hok
        have hover := HIH.2.2.1 hst
        obtain ⟨hwfsp, hksp⟩ := splitRoot_spec h3 hover
        have hkspall : ∀ f2, hc + 1 ≤ f2 →
            keysM f2 (splitRootNode t.m res.1) = keysM (t.size + 2) res.1 :=
          fun f2 hf2 => by
            rw [keysM_fuel hwfsp f2 (t.size + 2 + 1) hf2 (by omega), hksp]
        rcases hfl : res.2.2 with _ | _
        · rw [hfl, if_neg (by simp)] at hok
          rw [Except.ok.injEq] at hok
          subst hok
          obtain ⟨hkeq, hmem⟩ := HIH.2.1 hfl
          refine ⟨?_, rfl, Or.inr ⟨?_, ?_, rfl⟩⟩
          · apply wfT_mk h3 ((wfGo_fuel hwfsp).2 (t.size + 0 + 1) (by omega))
            rw [hkspall _ (by omega), hkeq, hkr21, hcard]
            omega
          · rw [hkeyst]
            exact hmem
          · rw [keysMT_mk, hkspall _ (by omega), hkeq, hkeyst]
        · rw [hfl, if_pos rfl] at hok
          rw [Except.ok.injEq] at hok
          subst hok
          obtain ⟨hkeq, hnmem⟩ := HIH.1 hfl
          refine ⟨?_, rfl, Or.inl ⟨?_, ?_, rfl⟩⟩
          · apply wfT_mk h3 ((wfGo_fuel hwfsp).2 (t.size + 1 + 1) (by omega))
            rw [hkspall _ (by omega), hkeq]
            simp only [Multiset.card_cons]
            rw [hkr21, hcard]
          · rw [hkeyst]
            exact hnmem
          · rw [keysMT_mk, hkspall _ (by omega), hkeq, hkeyst]

/-! ### Removal: rebalancing machinery -/

/-- `search` on a sorted node whose key at rank `i` is the item's key
reports exactly `(i, true)`. -/
theorem searchNode_found_rank {cs : List MContent} {it : MContent} {i : Nat}
    (hp : List.Pairwise (· < ·) (cs.map MContent.key)) (hi : i < cs.length)
    (hkey : (cs.map MContent.key).getD i 0 = it.key) :
    searchNode cs it = (i, true) := by
  have hmem : it.key ∈ cs.map MContent.key := by
    rw [← hkey, List.getD_eq_getElem _ _ (by simpa using hi)]
    exact List.getElem_mem _
  have hf : (searchNode cs it).2 = true := (searchNode_found_iff cs it hp).mpr hmem
  obtain ⟨hlt, heq⟩ := (searchNode_spec cs it hp).1 hf
  have hieq : (searchNode cs it).1 = i := by
    by_contra hne
    rcases Nat.lt_or_ge (searchNode cs it).1 i with hlt2 | hge2
    · have := intList_getD_lt hp hlt2 (by simpa using hi)
      omega
    · have hgt : i < (searchNode cs it).1 := by omega
      have := intList_getD_lt hp hgt (by simpa using hlt)
      omega
  rw [Prod.ext_iff]
  exact ⟨hieq, hf⟩

/-- The entry check of `rebalance` at the deletion site: the node is
returned unchanged up to its cached hash, and the status is `needReb`
exactly when a non-root node underflowed. -/
theorem rebalanceStart_spec {m fuel : Nat} {lo hi : Option Int} {n : MNode} {hc : Nat}
    (isRoot : Bool) (d : MContent)
    (hwf : wfGo m fuel 0 (maxContents m) lo hi n = some hc) :
    (keysM fuel (rebalanceStart m isRoot n d).1 = keysM fuel n ∧
     wfGo m fuel 0 (maxContents m) lo hi (rebalanceStart m isRoot n d).1 = some hc ∧
     (rebalanceStart m isRoot n d).1.contents.length = n.contents.length) ∧
    ((((rebalanceStart m isRoot n d).2 = .rehash ∨ (rebalanceStart m isRoot n d).2 = .stop) ∧
        (minContents m ≤ n.contents.length ∨ isRoot = true)) ∨
      ((rebalanceStart m isRoot n d).2 = .needReb d ∧ isRoot = false ∧
        n.contents.length < minContents m)) := by
  unfold rebalanceStart
  by_cases hge : n.contents.length ≥ minContents m
  · rw [if_pos hge]
    rcases hch : calculateHash n with e | n2
    · dsimp only
      exact ⟨⟨rfl, hwf, rfl⟩, Or.inl ⟨Or.inr rfl, Or.inl hge⟩⟩
    · dsimp only
      obtain ⟨hcs, hchl⟩ := calculateHash_ok_parts hch
      refine ⟨⟨keysM_calculateHash hch fuel, ?_, by rw [hcs]⟩,
        Or.inl ⟨Or.inl rfl, Or.inl hge⟩⟩
      rw [wfGo_calculateHash hch]
      exact hwf
  · rw [if_neg hge]
    cases isRoot with
    | true =>
      rw [if_pos rfl]
      exact ⟨⟨rfl, hwf, rfl⟩, Or.inl ⟨Or.inr rfl, Or.inr rfl⟩⟩
    | false =>
      rw [if_neg (by simp)]
      exact ⟨⟨rfl, hwf, rfl⟩, Or.inr ⟨rfl, rfl, by omega⟩⟩

/-! ### List edge operations, as `getD`/`take`/`drop` facts -/

theorem eraseIdx_zero {α : Type} (l : List α) : l.eraseIdx 0 = l.tail := by
  cases l <;> rfl

theorem headD_eq_getD {α : Type} (l : List α) (d : α) : l.headD d = l.getD 0 d := by
  cases l <;> rfl

theorem getLastD_eq_getD {α : Type} [Inhabited α] (l : List α) (d : α) :
    l.getLastD d = l.getD (l.length - 1) d := by
  rw [List.getLastD_eq_getLast?, List.getLast?_eq_getElem?, List.getD_eq_getElem?_getD]

theorem tail_eq_drop {α : Type} (l : List α) : l.tail = l.drop 1 := by
  cases l <;> rfl

theorem coe_dropLast_add (l : List Int) (hne : l.length ≠ 0) :
    (↑l.dropLast : Multiset Int) + {l.getLastD 0} = ↑l := by
  have h1 := coe_take_getElem_drop l (l.length - 1) (by omega)
  have h2 : l.drop (l.length - 1 + 1) = [] := by
    apply List.drop_eq_nil_of_le
    omega
  rw [h2] at h1
  rw [List.dropLast_eq_take, getLastD_eq_getD, List.getD_eq_getElem _ _ (by omega)]
  calc (↑(l.take (l.length - 1)) : Multiset Int) + {l.get ⟨l.length - 1, by omega⟩}
      = ↑(l.take (l.length - 1)) + {l.get ⟨l.length - 1, by omega⟩} + ↑([] : List Int) := by
        simp
    _ = ↑l := by
        rw [List.get_eq_getElem]
        exact h1

theorem sum_dropLast_add (l : List (Multiset Int)) (hne : l.length ≠ 0) :
    ((l.dropLast).sum : Multiset Int) + l.getLastD 0 = l.sum := by
  have h1 := sum_take_getElem_drop l (l.length - 1) (by omega)
  have h2 : l.drop (l.length - 1 + 1) = [] := by
    apply List.drop_eq_nil_of_le
    omega
  rw [h2] at h1
  simp only [List.sum_nil, add_zero] at h1
  rw [List.dropLast_eq_take, getLastD_eq_getD, List.getD_eq_getElem _ _ (by omega)]
  exact h1

theorem coe_tail_add (l : List Int) (hne : l.length ≠ 0) :
    ({l.headD 0} : Multiset Int) + ↑l.tail = ↑l := by
  cases l with
  | nil => simp at hne
  | cons a t =>
    rw [List.headD_cons, List.tail_cons, ← Multiset.cons_coe, Multiset.singleton_add]

theorem sum_tail_add (l : List (Multiset Int)) (hne : l.length ≠ 0) :
    l.headD 0 + (l.tail).sum = l.sum := by
  cases l with
  | nil => simp at hne
  | cons a t => rw [List.headD_cons, List.tail_cons, List.sum_cons]

theorem getD_dropLast {α : Type} (d : α) {l : List α} {j : Nat} (hj : j < l.length - 1) :
    l.dropLast.getD j d = l.getD j d := by
  rw [List.dropLast_eq_take]
  exact getD_take d hj (by omega)

theorem getD_tail {α : Type} (d : α) {l : List α} {j : Nat} (hj : 1 + j < l.length) :
    l.tail.getD j d = l.getD (1 + j) d := by
  rw [tail_eq_drop]
  exact getD_drop d hj

/-- A value strictly between the neighbours of slot `i` keeps a sorted list
sorted when written at slot `i`. -/
theorem pairwise_set_rank {ks : List Int} {v : Int} {i : Nat}
    (hp : List.Pairwise (· < ·) ks) (hi : i < ks.length)
    (hlow : ∀ j, j < ks.length → j < i → ks.getD j 0 < v)
    (hhigh : ∀ j, j < ks.length → i < j → v < ks.getD j 0) :
    List.Pairwise (· < ·) (ks.set i v) := by
  rw [List.pairwise_iff_getElem]
  intro a b ha hb hab
  rw [List.length_set] at ha hb
  rw [List.getElem_set, List.getElem_set]
  by_cases hia : i = a
  · rw [if_pos hia, if_neg (by omega)]
    rw [← List.getD_eq_getElem _ 0 hb]
    exact hhigh b (by omega) (by omega)
  · rw [if_neg hia]
    by_cases hib : i = b
    · rw [if_pos hib]
      rw [← List.getD_eq_getElem _ 0 ha]
      exact hlow a (by omega) (by omega)
    · rw [if_neg hib]
      exact List.pairwise_iff_getElem.mp hp a b (by omega) (by omega) hab

/-- The prefix node `(contents.take j, children.take (j + 1))` of a
well-formed node is well-formed in the window cut at key `j`. -/
theorem take_wf {m fuel : Nat} {wlo whi : Option Int} {cn : MNode} {hc minC0 maxC0 : Nat}
    (hwf : wfGo m (fuel + 1) minC0 maxC0 wlo whi cn = some hc)
    {j : Nat} (hj : j < cn.contents.length) (h2 : Option Digest) :
    wfGo m (fuel + 1) j j wlo (some ((cn.contents.map MContent.key).getD j 0))
      (MNode.node h2 (cn.contents.take j) (cn.children.take (j + 1))) = some hc := by
  obtain ⟨hcnt, ⟨hpair, hbnd⟩, hrest⟩ := wfGo_some_elim hwf
  have hkslen : (cn.contents.map MContent.key).length = cn.contents.length := by simp
  set ksc := cn.contents.map MContent.key with hksc
  have htakekeys : (cn.contents.take j).map MContent.key = ksc.take j := by
    rw [hksc, List.map_take]
  have htakelen : (cn.contents.take j).length = j := by
    simp
    omega
  have hpairT : List.Pairwise (· < ·) (ksc.take j) :=
    hpair.sublist (List.take_sublist _ _)
  have hbndT : ∀ k ∈ ksc.take j,
      inBounds wlo (some (ksc.getD j 0)) k = true := by
    intro k hk
    obtain ⟨j2, hj2, rfl⟩ := List.mem_iff_getElem.mp hk
    have hjlt : j2 < j := by
      have hj2b := hj2
      simp at hj2b
      omega
    rw [← List.getD_eq_getElem _ 0 hj2, getD_take 0 hjlt (by omega)]
    have hmem : ksc.getD j2 0 ∈ ksc := by
      rw [List.getD_eq_getElem _ _ (by omega)]
      exact List.getElem_mem _
    apply inBounds_intro
    · intro lv hlo
      exact inBounds_lo (hbnd _ hmem) hlo
    · intro hv hhv
      injection hhv with hhv
      rw [← hhv]
      exact intList_getD_lt hpair hjlt (by omega)
  rcases hrest with ⟨hleaf, rfl⟩ | ⟨hlen, hh, hkids⟩
  · apply wfGo_leaf_intro
    · simp only [MNode.contents_node]
      rw [htakelen]
      exact ⟨le_refl _, le_refl _⟩
    · simp only [MNode.contents_node]
      rw [htakekeys]
      exact hpairT
    · simp only [MNode.contents_node]
      rw [htakekeys]
      exact hbndT
    · simp only [MNode.children_node]
      rw [List.length_eq_zero.mp hleaf]
      simp
  · have hrw : hc = (hc - 1) + 1 := by omega
    rw [hrw]
    apply wfGo_internal_intro
    · simp only [MNode.contents_node]
      rw [htakelen]
      exact ⟨le_refl _, le_refl _⟩
    · simp only [MNode.contents_node]
      rw [htakekeys]
      exact hpairT
    · simp only [MNode.contents_node]
      rw [htakekeys]
      exact hbndT
    · simp only [MNode.children_node, MNode.contents_node]
      rw [htakelen, List.length_take]
      omega
    · intro i hilt
      simp only [MNode.children_node, MNode.contents_node] at hilt ⊢
      have hilt2 : i < j + 1 := by
        have := List.length_take_le (j + 1) cn.children
        simp at hilt
        omega
      have hchild : (cn.children.take (j + 1)).getD i default =
          cn.children.getD i default := getD_take default hilt2 (by omega)
      have hlow : lowAt wlo ((cn.contents.take j).map MContent.key) i =
          lowAt wlo ksc i := by
        unfold lowAt
        by_cases hi0 : i = 0
        · rw [if_pos hi0, if_pos hi0]
        · rw [if_neg hi0, if_neg hi0, htakekeys, getD_take 0 (by omega) (by omega)]
      have hhigh : highAt (some (ksc.getD j 0))
          ((cn.contents.take j).map MContent.key) i = highAt whi ksc i := by
        unfold highAt
        rw [htakekeys]
        have hlt : (ksc.take j).length = j := by
          simp
          omega
        by_cases him : i = j
        · rw [if_pos (by omega), if_neg (by omega), him]
        · rw [if_neg (by omega), if_neg (by omega), getD_take 0 (by omega) (by omega)]
      rw [hchild, hlow, hhigh]
      exact hkids i (by omega)

/-- The suffix node `(contents.drop (j + 1), children.drop (j + 1))` of a
well-formed node is well-formed in the window cut at key `j`. -/
theorem drop_wf {m fuel : Nat} {wlo whi : Option Int} {cn : MNode} {hc minC0 maxC0 : Nat}
    (hwf : wfGo m (fuel + 1) minC0 maxC0 wlo whi cn = some hc)
    {j : Nat} (hj : j < cn.contents.length) (h2 : Option Digest) :
    wfGo m (fuel + 1) (cn.contents.length - j - 1) (cn.contents.length - j - 1)
      (some ((cn.contents.map MContent.key).getD j 0)) whi
      (MNode.node h2 (cn.contents.drop (j + 1)) (cn.children.drop (j + 1))) = some hc := by
  obtain ⟨hcnt, ⟨hpair, hbnd⟩, hrest⟩ := wfGo_some_elim hwf
  have hkslen : (cn.contents.map MContent.key).length = cn.contents.length := by simp
  set ksc := cn.contents.map MContent.key with hksc
  have hdropkeys : (cn.contents.drop (j + 1)).map MContent.key = ksc.drop (j + 1) := by
    rw [hksc, List.map_drop]
  have hdroplen : (cn.contents.drop (j + 1)).length = cn.contents.length - j - 1 := by
    simp
    omega
  have hpairD : List.Pairwise (· < ·) (ksc.drop (j + 1)) :=
    hpair.sublist (List.drop_sublist _ _)
  have hbndD : ∀ k ∈ ksc.drop (j + 1),
      inBounds (some (ksc.getD j 0)) whi k = true := by
    intro k hk
    obtain ⟨j2, hj2, rfl⟩ := List.mem_iff_getElem.mp hk
    have hjlt : j + 1 + j2 < ksc.length := by
      simp at hj2
      omega
    rw [← List.getD_eq_getElem _ 0 hj2, getD_drop 0 (by omega)]
    have hmem : ksc.getD (j + 1 + j2) 0 ∈ ksc := by
      rw [List.getD_eq_getElem _ _ (by omega)]
      exact List.getElem_mem _
    apply inBounds_intro
    · intro lv hlo
      injection hlo with hlo
      rw [← hlo]
      exact intList_getD_lt hpair (by omega) (by omega)
    · intro hv hhv
      exact inBounds_hi (hbnd _ hmem) hhv
  rcases hrest with ⟨hleaf, rfl⟩ | ⟨hlen, hh, hkids⟩
  · apply wfGo_leaf_intro
    · simp only [MNode.contents_node]
      rw [hdroplen]
      exact ⟨le_refl _, le_refl _⟩
    · simp only [MNode.contents_node]
      rw [hdropkeys]
      exact hpairD
    · simp only [MNode.contents_node]
      rw [hdropkeys]
      exact hbndD
    · simp only [MNode.children_node]
      rw [List.length_eq_zero.mp hleaf]
      simp
  · have hrw : hc = (hc - 1) + 1 := by omega
    rw [hrw]
    apply wfGo_internal_intro
    · simp only [MNode.contents_node]
      rw [hdroplen]
      exact ⟨le_refl _, le_refl _⟩
    · simp only [MNode.contents_node]
      rw [hdropkeys]
      exact hpairD
    · simp only [MNode.contents_node]
      rw [hdropkeys]
      exact hbndD
    · simp only [MNode.children_node, MNode.contents_node]
      rw [hdroplen, List.length_drop]
      omega
    · intro i hilt
      simp only [MNode.children_node, MNode.contents_node] at hilt ⊢
      have hilt2 : j + 1 + i < cn.children.length := by
        simp at hilt
        omega
      have hchild : (cn.children.drop (j + 1)).getD i default =
          cn.children.getD (j + 1 + i) default := getD_drop default (by omega)
      have hlow : lowAt (some (ksc.getD j 0))
          ((cn.contents.drop (j + 1)).map MContent.key) i =
          lowAt wlo ksc (j + 1 + i) := by
        unfold lowAt
        by_cases hi0 : i = 0
        · subst hi0
          rw [if_pos rfl, if_neg (by omega)]
          simp
        · obtain ⟨i2, rfl⟩ : ∃ i2, i = i2 + 1 := ⟨i - 1, by omega⟩
          rw [if_neg hi0, if_neg (by omega), hdropkeys, getD_drop 0 (by omega)]
          rfl
      have hhigh : highAt whi ((cn.contents.drop (j + 1)).map MContent.key) i =
          highAt whi ksc (j + 1 + i) := by
        unfold highAt
        rw [hdropkeys]
        have hdl : (ksc.drop (j + 1)).length = cn.contents.length - j - 1 := by
          simp
          omega
        by_cases hiN : i = cn.contents.length - j - 1
        · rw [if_pos (by omega), if_pos (by omega)]
        · rw [if_neg (by omega), if_neg (by omega), getD_drop 0 (by omega)]
      rw [hchild, hlow, hhigh]
      exact hkids (j + 1 + i) (by omega)

end MerkleBTree
